import Mathlib

/-!
# Verification of the pathy path-emulation core

This file embeds the core of `pathy` (`src/pathy/__init__.py`) in Lean 4:

* the path-string parser (`_PathyFlavour.parse_parts` layered over pathlib's
  `_PosixFlavour.parse_parts`) and formatter (`PurePathy._format_parsed_parts`);
* the directory-emulation engine (`BucketsAccessor.exists` / `is_dir` /
  `rename` / `rmdir`, `Pathy.is_dir` / `is_file` / `rmdir`) over an abstract
  flat blob store that captures the `BucketClient` contract (a blob listing
  with a string prefix yields exactly the blobs whose key starts with that
  prefix; a "directory" exists iff at least one blob lies strictly under it);
* the local disk cache (`Pathy.to_local`, `use_fs_cache`, `clear_fs_cache`);
* the client registry (`get_client`, `use_fs`).

Python strings are modelled as `List Char`; Python `None`-able values as
`Option`; raised exceptions as `Option`/`Except` failures.
-/

/-- Python strings are modelled as lists of characters. -/
abbrev Str := List Char

/-- The `..` path segment. -/
def dotdot : Str := ['.', '.']

/-! ## Pathlib posix parsing (`_PosixFlavour.parse_parts` / `splitroot`)

`pathy` feeds its path strings through pathlib's posix flavour first.  For a
single input string, `splitroot` strips the leading separators (an exact run
of two yields the special root `//`, any other positive count yields `/`),
and `parse_parts` splits the remainder on `/`, dropping empty and `.`
segments, prepending the root marker (when present) as `parsed[0]`. -/

/-- Number of leading `/` characters of a string. -/
def leadingSeps : Str → Nat
  | [] => 0
  | c :: cs => if c = '/' then leadingSeps cs + 1 else 0

/-- `_PosixFlavour.splitroot` for a drive-less path: returns `(root, rel)`. -/
def posixSplitroot (s : Str) : Str × Str :=
  if leadingSeps s = 0 then ([], s)
  else if leadingSeps s = 2 then (['/', '/'], s.drop 2)
  else (['/'], s.drop (leadingSeps s))

/-- Segment filter used by pathlib: keep a split piece iff it is non-empty
and not `.` (`if x and x != '.'`). -/
def keepSeg (x : Str) : Bool := !(x == []) && !(x == ['.'])

/-- The filtered segments of the relative part of `s`. -/
def posixSegs (s : Str) : List Str :=
  ((posixSplitroot s).2.splitOn '/').filter keepSeg

/-- `_PosixFlavour.parse_parts` applied to a single input string: returns
`(root, parsed)`; the posix drive is always empty, so it is omitted. -/
def posixParseParts (s : Str) : Str × List Str :=
  if (posixSplitroot s).1 == [] then ((posixSplitroot s).1, posixSegs s)
  else ((posixSplitroot s).1, (posixSplitroot s).1 :: posixSegs s)

/-! ## The `..` removal loop of `_PathyFlavour.parse_parts`

```python
for part in parsed[1:]:
    if part == "..":
        index = parsed.index(part)
        parsed.pop(index - 1)
        parsed.remove(part)
```

The loop iterates over a snapshot of `parsed[1:]` taken before any mutation;
`list.index` / `list.remove` raise `ValueError` when the element is absent,
and `list.pop` accepts the negative index `-1` (when `index == 0`), counting
from the end.  Failures are modelled as `none`. -/

/-- Python `list.index(x)`: index of the first occurrence, `none` models the
raised `ValueError` when absent. -/
def pyIndex (x : Str) : List Str → Option Nat
  | [] => none
  | y :: ys => if y == x then some 0 else (pyIndex x ys).map (· + 1)

/-- A possibly negative Python list index, adjusted to count from the end. -/
def pyIdxAdj (l : List Str) (i : Int) : Int := if i < 0 then i + l.length else i

/-- Python `list.pop(i)` (result list only): a negative `i` counts from the
end; `none` models the raised `IndexError` when out of range. -/
def pyPop (l : List Str) (i : Int) : Option (List Str) :=
  if 0 ≤ pyIdxAdj l i ∧ (pyIdxAdj l i).toNat < l.length then
    some (l.eraseIdx (pyIdxAdj l i).toNat)
  else none

/-- Python `list.remove(x)`: drop the first occurrence, `none` models the
raised `ValueError` when absent. -/
def pyRemove (x : Str) : List Str → Option (List Str)
  | [] => none
  | y :: ys => if y == x then some ys else (pyRemove x ys).map (y :: ·)

/-- One `..` iteration of the loop body:
`index = parsed.index("..")`, `parsed.pop(index - 1)`, `parsed.remove("..")`. -/
def ddStep (parsed : List Str) : Option (List Str) := do
  let i ← pyIndex dotdot parsed
  let l ← pyPop parsed ((i : Int) - 1)
  pyRemove dotdot l

/-- The whole loop, folding the body over the snapshot of `parsed[1:]`. -/
def ddLoop : List Str → List Str → Option (List Str)
  | [], parsed => some parsed
  | part :: rest, parsed =>
      if part == dotdot then (ddStep parsed).bind (ddLoop rest) else ddLoop rest parsed

/-- `s` ends with the character `:`. -/
def endsWithColon (s : Str) : Bool := s.getLast? == some ':'

/-- The parsed representation of a path string: pathlib's
`(drv, root, parts)` triple as produced by `_PathyFlavour.parse_parts`. -/
structure ParsedParts where
  drv : Str
  root : Str
  parts : List Str
deriving DecidableEq, Repr

/-- The pathy layer on top of the posix parse result `(root0, parsed0)`:
promote a leading `scheme:` segment to the drive and the next segment to the
root, then run the `..` loop.  `none` models a raised `ValueError`. -/
def pathyAdjust : Str × List Str → Option ParsedParts :=
  fun pr =>
    let root0 := pr.1
    let parsed0 := pr.2
    let dr : Option (Str × Str) :=
      match parsed0 with
      | p0 :: rest =>
          if endsWithColon p0 then
            match rest with
            | [] => none
            | p1 :: _ => some (p0, p1)
          else some ([], root0)
      | [] => some ([], root0)
    match dr with
    | none => none
    | some (drv, root) =>
        match ddLoop parsed0.tail parsed0 with
        | none => none
        | some parsed => some ⟨drv, root, parsed⟩

/-- `_PathyFlavour.parse_parts` on a single input string.  `none` models a
raised `ValueError` (either the explicit `"need atleast two parts"` check or
a failure inside the `..` loop). -/
def pathyParseParts (s : Str) : Option ParsedParts :=
  pathyAdjust (posixParseParts s)

/-- Straightforward lexical `..` resolution, processing key segments left to
right over a stack: a non-`..` segment is pushed, a `..` segment pops the
segment pushed immediately before it (`none` when there is none to pop).
This is the specification the `..` loop is measured against. -/
def lexRun : List Str → List Str → Option (List Str)
  | stack, [] => some stack
  | stack, x :: rest =>
      if x == dotdot then
        match stack with
        | [] => none
        | _ :: _ => lexRun stack.dropLast rest
      else lexRun (stack ++ [x]) rest

/-- `"/".join(l)`. -/
def joinSep (l : List Str) : Str := (['/'] : Str).intercalate l

/-- `PurePathy._format_parsed_parts`. -/
def formatParsedParts (drv root : Str) (parts : List Str) : Str :=
  if !(drv == []) && !(root == []) then
    drv ++ ['/', '/'] ++ root ++ ['/'] ++ joinSep (parts.drop 2)
  else if !(drv == []) || !(root == []) then
    drv ++ root ++ joinSep (parts.drop 1)
  else joinSep parts

/-- Formatting a `ParsedParts` value. -/
def formatPP (v : ParsedParts) : Str := formatParsedParts v.drv v.root v.parts

/-- The observable Path Value of a parse result: scheme (`drv`), bucket
(`root`), and key segments (`parts[2:]`, as used by `PurePathy.key`). -/
def pathValueOf (v : ParsedParts) : Str × Str × List Str :=
  (v.drv, v.root, v.parts.drop 2)

/-! ## Structural facts about the parser -/

/-- A well-formed path segment: non-empty, not `.`, separator-free. -/
def cleanSeg (x : Str) : Prop := x ≠ [] ∧ x ≠ ['.'] ∧ '/' ∉ x

/-- Every piece produced by `splitOnP p` contains no element satisfying `p`. -/
theorem splitOnP_pieces {α : Type} (p : α → Bool) (l : List α) :
    ∀ piece ∈ l.splitOnP p, ∀ a ∈ piece, ¬ p a := by
  induction l with
  | nil =>
      intro piece hp a ha
      rw [List.splitOnP_nil] at hp
      simp only [List.mem_singleton] at hp
      subst hp
      simp at ha
  | cons x xs ih =>
      intro piece hp a ha
      rw [List.splitOnP_cons] at hp
      by_cases hx : p x
      · rw [if_pos hx] at hp
        rcases List.mem_cons.mp hp with h1 | h1
        · subst h1; simp at ha
        · exact ih piece h1 a ha
      · rw [if_neg hx] at hp
        rcases hsp : xs.splitOnP p with _ | ⟨hd, tl⟩
        · exact absurd hsp (List.splitOnP_ne_nil p xs)
        · rw [hsp, List.modifyHead_cons] at hp
          rcases List.mem_cons.mp hp with h1 | h1
          · subst h1
            rcases List.mem_cons.mp ha with h2 | h2
            · subst h2; exact hx
            · exact ih hd (by rw [hsp]; exact List.mem_cons_self _ _) a h2
          · exact ih piece (by rw [hsp]; exact List.mem_cons_of_mem _ h1) a ha

/-- Pieces of a `/`-split never contain `/`. -/
theorem mem_splitOn_slash {l piece : Str} (h : piece ∈ l.splitOn '/') :
    '/' ∉ piece := by
  intro hm
  have := splitOnP_pieces (· == '/') l piece h '/' hm
  simp at this

/-- Every filtered segment is clean. -/
theorem posixSegs_clean (s : Str) : ∀ x ∈ posixSegs s, cleanSeg x := by
  intro x hx
  obtain ⟨hmem, hkeep⟩ := List.mem_filter.mp hx
  simp only [keepSeg, Bool.and_eq_true, Bool.not_eq_true', beq_eq_false_iff_ne] at hkeep
  exact ⟨hkeep.1, hkeep.2, mem_splitOn_slash hmem⟩

/-- The posix root is one of ` `, `/`, `//`. -/
theorem posixSplitroot_cases (s : Str) :
    (posixSplitroot s).1 = [] ∨ (posixSplitroot s).1 = ['/'] ∨
      (posixSplitroot s).1 = ['/', '/'] := by
  unfold posixSplitroot
  split
  · exact Or.inl rfl
  · split
    · exact Or.inr (Or.inr rfl)
    · exact Or.inr (Or.inl rfl)

theorem posixParseParts_of_root_nil (s : Str) (h : (posixSplitroot s).1 = []) :
    posixParseParts s = ([], posixSegs s) := by
  unfold posixParseParts
  rw [h]
  simp

theorem posixParseParts_of_root_ne (s : Str) (h : (posixSplitroot s).1 ≠ []) :
    posixParseParts s = ((posixSplitroot s).1, (posixSplitroot s).1 :: posixSegs s) := by
  unfold posixParseParts
  rw [if_neg (by simpa using h)]

theorem pyRemove_sublist {x : Str} :
    ∀ {l out : List Str}, pyRemove x l = some out → List.Sublist out l := by
  intro l
  induction l with
  | nil => intro out h; simp [pyRemove] at h
  | cons y ys ih =>
      intro out h
      simp only [pyRemove] at h
      by_cases hy : y == x
      · rw [if_pos hy] at h
        cases h
        exact List.sublist_cons_self y ys
      · rw [if_neg hy] at h
        cases ho : pyRemove x ys with
        | none => rw [ho] at h; simp at h
        | some o =>
            rw [ho] at h
            simp only [Option.map_some', Option.some.injEq] at h
            subst h
            exact (ih ho).cons_cons y

theorem pyPop_sublist {l out : List Str} {i : Int} (h : pyPop l i = some out) :
    List.Sublist out l := by
  unfold pyPop at h
  by_cases hc : 0 ≤ pyIdxAdj l i ∧ (pyIdxAdj l i).toNat < l.length
  · rw [if_pos hc] at h
    cases h
    exact List.eraseIdx_sublist _ _
  · rw [if_neg hc] at h
    simp at h

theorem ddStep_sublist {parsed out : List Str} (h : ddStep parsed = some out) :
    List.Sublist out parsed := by
  unfold ddStep at h
  cases hi : pyIndex dotdot parsed with
  | none => rw [hi] at h; simp at h
  | some i =>
      rw [hi] at h
      simp only [Option.bind_eq_bind, Option.some_bind] at h
      cases hp : pyPop parsed ((i : Int) - 1) with
      | none => rw [hp] at h; simp at h
      | some l =>
          rw [hp] at h
          simp only [Option.some_bind] at h
          exact (pyRemove_sublist h).trans (pyPop_sublist hp)

theorem ddLoop_sublist :
    ∀ (snap parsed out : List Str), ddLoop snap parsed = some out →
      List.Sublist out parsed := by
  intro snap
  induction snap with
  | nil =>
      intro parsed out h
      simp only [ddLoop, Option.some.injEq] at h
      subst h
      exact List.Sublist.refl _
  | cons part rest ih =>
      intro parsed out h
      simp only [ddLoop] at h
      by_cases hp : part == dotdot
      · rw [if_pos hp] at h
        cases hs : ddStep parsed with
        | none => rw [hs] at h; simp at h
        | some mid =>
            rw [hs] at h
            simp only [Option.some_bind] at h
            exact (ih mid out h).trans (ddStep_sublist hs)
      · rw [if_neg hp] at h
        exact ih parsed out h

/-- When the snapshot contains no `..`, the loop leaves `parsed` untouched. -/
theorem ddLoop_no_dd :
    ∀ (snap parsed : List Str), (∀ x ∈ snap, x ≠ dotdot) →
      ddLoop snap parsed = some parsed := by
  intro snap
  induction snap with
  | nil => intro parsed _; rfl
  | cons part rest ih =>
      intro parsed h
      simp only [ddLoop]
      rw [if_neg (by simpa using h part (List.mem_cons_self _ _))]
      exact ih parsed fun x hx => h x (List.mem_cons_of_mem _ hx)

theorem pyIndex_append {pre : List Str} (h : ∀ x ∈ pre, x ≠ dotdot)
    (post : List Str) : pyIndex dotdot (pre ++ dotdot :: post) = some pre.length := by
  induction pre with
  | nil => simp [pyIndex]
  | cons y ys ih =>
      have hy : ¬ (y == dotdot) = true := by
        simpa using h y (List.mem_cons_self _ _)
      have ih2 := ih fun x hx => h x (List.mem_cons_of_mem _ hx)
      show pyIndex dotdot (y :: (ys ++ dotdot :: post)) = some (y :: ys).length
      simp only [pyIndex, if_neg hy, ih2, Option.map_some', List.length_cons]

theorem eraseIdx_append_right {α : Type} (r : List α) (i : Nat) :
    ∀ (l : List α), (l ++ r).eraseIdx (l.length + i) = l ++ r.eraseIdx i
  | [] => by simp
  | a :: as => by
      have hlen : (a :: as).length + i = (as.length + i) + 1 := by
        simp only [List.length_cons]
        omega
      rw [List.cons_append, hlen, List.eraseIdx_cons_succ,
        eraseIdx_append_right r i as, List.cons_append]

theorem pyRemove_append {pre : List Str} (h : ∀ x ∈ pre, x ≠ dotdot)
    (post : List Str) : pyRemove dotdot (pre ++ dotdot :: post) = some (pre ++ post) := by
  induction pre with
  | nil => simp [pyRemove]
  | cons y ys ih =>
      have hy : ¬ (y == dotdot) = true := by
        simpa using h y (List.mem_cons_self _ _)
      have ih2 := ih fun x hx => h x (List.mem_cons_of_mem _ hx)
      show pyRemove dotdot (y :: (ys ++ dotdot :: post)) = some (y :: (ys ++ post))
      simp only [pyRemove, if_neg hy, ih2, Option.map_some']

/-- One `..` iteration on `front ++ stack ++ .. :: rest` with `..`-free
`front` and non-empty `..`-free `stack` pops the last stack element and the
`..` itself. -/
theorem ddStep_mid (front stack rest : List Str)
    (hf : ∀ x ∈ front, x ≠ dotdot)
    (hs : ∀ x ∈ stack, x ≠ dotdot) (hne : stack ≠ []) :
    ddStep (front ++ stack ++ dotdot :: rest) =
      some (front ++ stack.dropLast ++ rest) := by
  have hpre : ∀ x ∈ front ++ stack, x ≠ dotdot := by
    intro x hx
    rcases List.mem_append.mp hx with h1 | h1
    · exact hf x h1
    · exact hs x h1
  have hidx : pyIndex dotdot (front ++ stack ++ dotdot :: rest) =
      some (front ++ stack).length := pyIndex_append hpre rest
  unfold ddStep
  rw [hidx]
  simp only [Option.bind_eq_bind, Option.some_bind]
  have hslen : stack.length = stack.dropLast.length + 1 := by
    cases stack with
    | nil => exact absurd rfl hne
    | cons a as => simp
  have hi0 : (((front ++ stack).length : Int)) - 1 =
      ((front.length + stack.dropLast.length : Nat) : Int) := by
    simp only [List.length_append]
    omega
  rw [hi0]
  have hadj : pyIdxAdj (front ++ stack ++ dotdot :: rest)
      ((front.length + stack.dropLast.length : Nat) : Int) =
      ((front.length + stack.dropLast.length : Nat) : Int) := by
    unfold pyIdxAdj
    rw [if_neg (by omega)]
  have hcond : (0 : Int) ≤ ((front.length + stack.dropLast.length : Nat) : Int) ∧
      (((front.length + stack.dropLast.length : Nat) : Int)).toNat <
        (front ++ stack ++ dotdot :: rest).length := by
    refine ⟨by omega, ?_⟩
    simp only [List.length_append, List.length_cons]
    omega
  unfold pyPop
  rw [hadj, if_pos hcond]
  have hsplit : front ++ stack ++ dotdot :: rest =
      front ++ stack.dropLast ++ (stack.getLast hne :: dotdot :: rest) := by
    conv_lhs => rw [← List.dropLast_append_getLast hne]
    simp [List.append_assoc]
  have htoNat : (((front.length + stack.dropLast.length : Nat) : Int)).toNat =
      (front ++ stack.dropLast).length + 0 := by
    simp only [List.length_append]
    omega
  rw [hsplit, htoNat, eraseIdx_append_right]
  simp only [List.eraseIdx_cons_zero]
  have hpre2 : ∀ x ∈ front ++ stack.dropLast, x ≠ dotdot := by
    intro x hx
    rcases List.mem_append.mp hx with h1 | h1
    · exact hf x h1
    · exact hs x (List.dropLast_sublist stack |>.mem h1)
  simp only [Option.some_bind]
  rw [pyRemove_append hpre2 rest]

/-- The `..` loop agrees with straightforward lexical resolution as long as
the lexical stack never underflows: the two fixed front entries and the
already-resolved stack are preserved, and each `..` drops exactly the
segment resolved immediately before it. -/
theorem ddLoop_lexRun :
    ∀ (segs stack r front : List Str),
      (∀ x ∈ front, x ≠ dotdot) → (∀ x ∈ stack, x ≠ dotdot) →
      lexRun stack segs = some r →
      ddLoop segs (front ++ stack ++ segs) = some (front ++ r) := by
  intro segs
  induction segs with
  | nil =>
      intro stack r front _ _ hlex
      simp only [lexRun, Option.some.injEq] at hlex
      subst hlex
      simp [ddLoop]
  | cons x rest ih =>
      intro stack r front hf hs hlex
      simp only [lexRun] at hlex
      by_cases hx : x == dotdot
      · rw [if_pos hx] at hlex
        cases hstack : stack with
        | nil => rw [hstack] at hlex; simp at hlex
        | cons a as =>
            subst hstack
            simp only at hlex
            have hne : a :: as ≠ ([] : List Str) := by simp
            have hxe : x = dotdot := by simpa using hx
            simp only [ddLoop, if_pos hx]
            rw [hxe, ddStep_mid front (a :: as) rest hf hs hne]
            simp only [Option.some_bind]
            have hdl : ∀ y ∈ (a :: as).dropLast, y ≠ dotdot := fun y hy =>
              hs y (List.dropLast_sublist (a :: as) |>.mem hy)
            exact ih (a :: as).dropLast r front hf hdl hlex
      · rw [if_neg hx] at hlex
        simp only [ddLoop, if_neg hx]
        have hs2 : ∀ y ∈ stack ++ [x], y ≠ dotdot := by
          intro y hy
          rcases List.mem_append.mp hy with h1 | h1
          · exact hs y h1
          · simp only [List.mem_singleton] at h1
            subst h1
            simpa using hx
        have hres := ih (stack ++ [x]) r front hf hs2 hlex
        rw [← hres]
        congr 1
        simp [List.append_assoc]

/-- Computation rule for `pathyAdjust` when the first parsed part ends in
`:` (the scheme branch). -/
theorem pathyAdjust_scheme (root0 d b : Str) (rest : List Str)
    (hd : endsWithColon d = true) :
    pathyAdjust (root0, d :: b :: rest) =
      match ddLoop (b :: rest) (d :: b :: rest) with
      | none => none
      | some parsed => some ⟨d, b, parsed⟩ := by
  unfold pathyAdjust
  simp only [hd, if_true, List.tail_cons]

/-- C6 (amended): for a `scheme://bucket/...` path string, the `..` loop
resolves the key segments purely lexically: provided the bucket segment is
not itself `..` and every `..` key segment has a preceding key segment left
to consume (the lexical stack never underflows), parsing succeeds and each
`..` drops exactly itself and the segment resolved immediately before it.
No store or backend is consulted: `pathyParseParts` is a pure function of
the string. -/
theorem c6_dotdot_lexical_amended (s d b : Str) (segs r : List Str)
    (hposix : posixParseParts s = ([], d :: b :: segs))
    (hd : endsWithColon d = true) (hb : b ≠ dotdot)
    (hlex : lexRun [] segs = some r) :
    pathyParseParts s = some ⟨d, b, d :: b :: r⟩ := by
  unfold pathyParseParts
  rw [hposix, pathyAdjust_scheme _ _ _ _ hd]
  have hdd : d ≠ dotdot := by
    intro he
    rw [he] at hd
    simp [endsWithColon, dotdot] at hd
  have hfront : ∀ x ∈ [d, b], x ≠ dotdot := by
    intro x hx
    rcases List.mem_cons.mp hx with h1 | h1
    · exact h1 ▸ hdd
    · simp only [List.mem_singleton] at h1
      exact h1 ▸ hb
  have h1 : ddLoop segs ([d, b] ++ [] ++ segs) = some ([d, b] ++ r) :=
    ddLoop_lexRun segs [] r [d, b] hfront (by intro x hx; simp at hx) hlex
  have hloop : ddLoop (b :: segs) (d :: b :: segs) = some (d :: b :: r) := by
    have hbne : ¬ (b == dotdot) = true := by simpa using hb
    simp only [ddLoop, if_neg hbne]
    simpa using h1
  rw [hloop]

/-- C6 counterexample: the claim promises that every `..` key segment after
the bucket is dropped together with the segment immediately preceding it,
for every input containing `..` after the bucket.  When the `..` segments
outnumber the preceding key segments this fails in two distinct ways: on
`gs://b/../..` the loop walks past the key and consumes the bucket and
scheme entries of the parts list, succeeding with drv `gs:`, root `b` and
an *empty* parts list; on `gs://b/../../..` it exhausts the list entirely
and raises `ValueError`: parsing fails. -/
theorem c6_counterexample :
    (posixParseParts "gs://b/../..".data =
      ([], [['g', 's', ':'], ['b'], dotdot, dotdot]) ∧
    pathyParseParts "gs://b/../..".data =
      some ⟨['g', 's', ':'], ['b'], []⟩) ∧
    (posixParseParts "gs://b/../../..".data =
      ([], [['g', 's', ':'], ['b'], dotdot, dotdot, dotdot]) ∧
    pathyParseParts "gs://b/../../..".data = none) := by decide

/-- Witness for `c6_dotdot_lexical_amended` at the concrete string
`gs://bkt/a/b/../c`: the `..` and the preceding `b` are dropped. -/
theorem c6_witness :
    pathyParseParts "gs://bkt/a/b/../c".data =
      some ⟨['g', 's', ':'], ['b', 'k', 't'],
        [['g', 's', ':'], ['b', 'k', 't'], ['a'], ['c']]⟩ :=
  c6_dotdot_lexical_amended "gs://bkt/a/b/../c".data ['g', 's', ':'] ['b', 'k', 't']
    [['a'], ['b'], dotdot, ['c']] [['a'], ['c']]
    (by decide) (by decide) (by decide) (by decide)

/-! ## Round-tripping the formatter through the parser -/

theorem joinSep_nil : joinSep [] = [] := rfl

theorem joinSep_cons (x : Str) (r : List Str) (h : r ≠ []) :
    joinSep (x :: r) = x ++ '/' :: joinSep r := by
  cases r with
  | nil => exact absurd rfl h
  | cons y t => simp [joinSep, List.intercalate, List.intersperse]

/-- Splitting recovers the piece before a separator. -/
theorem splitOn_append_slash (xs : Str) (h : '/' ∉ xs) (as : Str) :
    (xs ++ '/' :: as).splitOn '/' = xs :: as.splitOn '/' := by
  have h2 : ∀ x ∈ xs, ¬ ((· == '/') x = true) := by
    intro x hx hbeq
    simp only [beq_iff_eq] at hbeq
    exact h (hbeq ▸ hx)
  exact List.splitOnP_first (· == '/') xs h2 '/' (by simp) as

/-- Splitting the `/`-join of non-empty separator-free segments recovers
the segments. -/
theorem splitOn_joinSep (segs : List Str) (hne : segs ≠ [])
    (h : ∀ x ∈ segs, '/' ∉ x) : (joinSep segs).splitOn '/' = segs :=
  List.splitOn_intercalate segs '/' h hne

theorem leadingSeps_cons_ne {c : Char} (l : Str) (h : c ≠ '/') :
    leadingSeps (c :: l) = 0 := by
  simp [leadingSeps, h]

theorem leadingSeps_append_ne {x : Str} (hx : x ≠ []) (h : '/' ∉ x) (post : Str) :
    leadingSeps (x ++ post) = 0 := by
  cases x with
  | nil => exact absurd rfl hx
  | cons c t =>
      have : c ≠ '/' := fun he => h (he ▸ List.mem_cons_self c t)
      simpa using leadingSeps_cons_ne (t ++ post) this

/-- `joinSep segs` never starts with `/` when the segments are clean. -/
theorem leadingSeps_joinSep (segs : List Str) (h : ∀ x ∈ segs, cleanSeg x) :
    leadingSeps (joinSep segs) = 0 := by
  cases segs with
  | nil => rfl
  | cons x r =>
      obtain ⟨hne, _, hns⟩ := h x (List.mem_cons_self _ _)
      cases r with
      | nil =>
          show leadingSeps (joinSep [x]) = 0
          have : joinSep [x] = x ++ [] := by
            simp [joinSep, List.intercalate, List.intersperse]
          rw [this]
          exact leadingSeps_append_ne hne hns []
      | cons y t =>
          rw [joinSep_cons x (y :: t) (by simp)]
          exact leadingSeps_append_ne hne hns _

theorem keepSeg_of_clean {x : Str} (h : x ≠ [] ∧ x ≠ ['.']) : keepSeg x = true := by
  simp only [keepSeg, Bool.and_eq_true, Bool.not_eq_true', beq_eq_false_iff_ne]
  exact h

theorem endsWithColon_ne_dot {x : Str} (h : endsWithColon x = true) : x ≠ ['.'] := by
  intro he
  rw [he] at h
  simp [endsWithColon] at h

/-- Re-parsing a formatted `scheme://bucket/...` string recovers the drive,
root, and key segments. -/
theorem reparse_scheme (drv root : Str) (segs : List Str)
    (hdrvne : drv ≠ []) (hdrvns : '/' ∉ drv) (hdrvcol : endsWithColon drv = true)
    (hroot : cleanSeg root) (hrootdd : root ≠ dotdot)
    (hsegs : ∀ x ∈ segs, cleanSeg x) (hsegsdd : ∀ x ∈ segs, x ≠ dotdot) :
    pathyParseParts (drv ++ ['/', '/'] ++ root ++ ['/'] ++ joinSep segs) =
      some ⟨drv, root, drv :: root :: segs⟩ := by
  have hF : drv ++ ['/', '/'] ++ root ++ ['/'] ++ joinSep segs =
      drv ++ '/' :: '/' :: (root ++ '/' :: joinSep segs) := by
    simp [List.append_assoc]
  rw [hF]
  have hl0 : leadingSeps (drv ++ '/' :: '/' :: (root ++ '/' :: joinSep segs)) = 0 :=
    leadingSeps_append_ne hdrvne hdrvns _
  have hsr : posixSplitroot (drv ++ '/' :: '/' :: (root ++ '/' :: joinSep segs)) =
      ([], drv ++ '/' :: '/' :: (root ++ '/' :: joinSep segs)) := by
    unfold posixSplitroot
    rw [hl0]
    simp
  have hsegsfil : List.filter keepSeg segs = segs :=
    List.filter_eq_self.mpr fun x hx => keepSeg_of_clean ⟨(hsegs x hx).1, (hsegs x hx).2.1⟩
  have htail : ((joinSep segs).splitOn '/').filter keepSeg = segs := by
    cases hs0 : segs with
    | nil => rw [joinSep_nil]; decide
    | cons a t =>
        rw [← hs0, splitOn_joinSep segs (by rw [hs0]; simp)
          (fun x hx => (hsegs x hx).2.2)]
        exact hsegsfil
  have hsplit : ((drv ++ '/' :: '/' :: (root ++ '/' :: joinSep segs)) : Str).splitOn '/' =
      drv :: [] :: root :: (joinSep segs).splitOn '/' := by
    rw [splitOn_append_slash drv hdrvns]
    have h2 : (('/' :: (root ++ '/' :: joinSep segs)) : Str).splitOn '/' =
        [] :: (root ++ '/' :: joinSep segs).splitOn '/' :=
      splitOn_append_slash [] (by simp) _
    rw [h2, splitOn_append_slash root hroot.2.2]
  have hps : posixSegs (drv ++ '/' :: '/' :: (root ++ '/' :: joinSep segs)) =
      drv :: root :: segs := by
    unfold posixSegs
    rw [hsr]
    simp only
    rw [hsplit, List.filter_cons_of_pos, List.filter_cons_of_neg,
      List.filter_cons_of_pos, htail]
    · exact keepSeg_of_clean ⟨hroot.1, hroot.2.1⟩
    · decide
    · exact keepSeg_of_clean ⟨hdrvne, endsWithColon_ne_dot hdrvcol⟩
  have hpp : posixParseParts (drv ++ '/' :: '/' :: (root ++ '/' :: joinSep segs)) =
      ([], drv :: root :: segs) := by
    unfold posixParseParts
    rw [hsr, hps]
    simp
  show pathyAdjust _ = _
  rw [hpp, pathyAdjust_scheme _ _ _ _ hdrvcol]
  have hsnap : ∀ x ∈ root :: segs, x ≠ dotdot := by
    intro x hx
    rcases List.mem_cons.mp hx with h1 | h1
    · exact h1 ▸ hrootdd
    · exact hsegsdd x h1
  rw [ddLoop_no_dd _ _ hsnap]

/-- Re-parsing a formatted legacy rooted string (`/...` or `//...`). -/
theorem reparse_rooted (root : Str) (hroot : root = ['/'] ∨ root = ['/', '/'])
    (segs : List Str) (hsegs : ∀ x ∈ segs, cleanSeg x)
    (hsegsdd : ∀ x ∈ segs, x ≠ dotdot) :
    pathyParseParts (root ++ joinSep segs) = some ⟨[], root, root :: segs⟩ := by
  have hjl0 : leadingSeps (joinSep segs) = 0 := leadingSeps_joinSep segs hsegs
  have hsegsfil : List.filter keepSeg segs = segs :=
    List.filter_eq_self.mpr fun x hx => keepSeg_of_clean ⟨(hsegs x hx).1, (hsegs x hx).2.1⟩
  have htail : ((joinSep segs).splitOn '/').filter keepSeg = segs := by
    cases hs0 : segs with
    | nil => rw [joinSep_nil]; decide
    | cons a t =>
        rw [← hs0, splitOn_joinSep segs (by rw [hs0]; simp)
          (fun x hx => (hsegs x hx).2.2)]
        exact hsegsfil
  have hsr : posixSplitroot (root ++ joinSep segs) = (root, joinSep segs) := by
    rcases hroot with h1 | h1 <;> subst h1
    · have hl : leadingSeps (('/' : Char) :: joinSep segs) = 1 := by
        simp [leadingSeps, hjl0]
      unfold posixSplitroot
      simp [hl]
    · have hl : leadingSeps (('/' : Char) :: '/' :: joinSep segs) = 2 := by
        simp [leadingSeps, hjl0]
      unfold posixSplitroot
      simp [hl]
  have hps : posixSegs (root ++ joinSep segs) = segs := by
    unfold posixSegs
    rw [hsr]
    exact htail
  have hrne : ¬ (root == ([] : Str)) = true := by
    rcases hroot with h1 | h1 <;> subst h1 <;> decide
  have hpp : posixParseParts (root ++ joinSep segs) = (root, root :: segs) := by
    unfold posixParseParts
    rw [hsr, hps]
    simp only
    rw [if_neg hrne]
  have hcol : endsWithColon root = false := by
    rcases hroot with h1 | h1 <;> subst h1 <;> decide
  show pathyAdjust _ = _
  rw [hpp]
  unfold pathyAdjust
  simp only [hcol, Bool.false_eq_true, if_false, List.tail_cons]
  rw [ddLoop_no_dd _ _ hsegsdd]

/-- Re-parsing a formatted relative string. -/
theorem reparse_relative (parts : List Str) (hclean : ∀ x ∈ parts, cleanSeg x)
    (hdd : ∀ x ∈ parts, x ≠ dotdot)
    (hcol : ∀ (x : Str) (t : List Str), parts = x :: t → endsWithColon x = false) :
    pathyParseParts (joinSep parts) = some ⟨[], [], parts⟩ := by
  cases hp0 : parts with
  | nil => rw [joinSep_nil]; decide
  | cons a t =>
      subst hp0
      have hane := (hclean a (List.mem_cons_self _ _)).1
      have hl0 : leadingSeps (joinSep (a :: t)) = 0 := leadingSeps_joinSep _ hclean
      have hsr : posixSplitroot (joinSep (a :: t)) = ([], joinSep (a :: t)) := by
        unfold posixSplitroot
        rw [hl0]
        simp
      have hps : posixSegs (joinSep (a :: t)) = a :: t := by
        unfold posixSegs
        rw [hsr]
        simp only
        rw [splitOn_joinSep _ (by simp) (fun x hx => (hclean x hx).2.2)]
        exact List.filter_eq_self.mpr fun x hx =>
          keepSeg_of_clean ⟨(hclean x hx).1, (hclean x hx).2.1⟩
      have hpp : posixParseParts (joinSep (a :: t)) = ([], a :: t) := by
        unfold posixParseParts
        rw [hsr, hps]
        simp
      show pathyAdjust _ = _
      rw [hpp]
      unfold pathyAdjust
      simp only [hcol a t rfl, Bool.false_eq_true, if_false, List.tail_cons]
      rw [ddLoop_no_dd _ _ fun x hx => hdd x (List.mem_cons_of_mem _ hx)]

theorem pathyAdjust_nil (root0 : Str) :
    pathyAdjust (root0, []) = some ⟨[], root0, []⟩ := rfl

theorem pathyAdjust_scheme_single (root0 p0 : Str) (h : endsWithColon p0 = true) :
    pathyAdjust (root0, [p0]) = none := by
  unfold pathyAdjust
  simp only [h, if_true]

theorem pathyAdjust_noscheme (root0 p0 : Str) (rest : List Str)
    (h : ¬ endsWithColon p0 = true) :
    pathyAdjust (root0, p0 :: rest) =
      match ddLoop rest (p0 :: rest) with
      | none => none
      | some parsed => some ⟨[], root0, parsed⟩ := by
  unfold pathyAdjust
  simp only [h, Bool.false_eq_true, if_false, List.tail_cons]

theorem formatPP_scheme (v : ParsedParts) (h1 : v.drv ≠ []) (h2 : v.root ≠ []) :
    formatPP v = v.drv ++ ['/', '/'] ++ v.root ++ ['/'] ++ joinSep (v.parts.drop 2) := by
  have hc : (!(v.drv == ([] : Str)) && !(v.root == ([] : Str))) = true := by
    simp [h1, h2]
  unfold formatPP formatParsedParts
  rw [if_pos hc]

theorem formatPP_rooted (v : ParsedParts) (h1 : v.drv = []) (h2 : v.root ≠ []) :
    formatPP v = v.root ++ joinSep (v.parts.drop 1) := by
  have hc1 : (!(v.drv == ([] : Str)) && !(v.root == ([] : Str))) = false := by
    simp [h1]
  have hc2 : (!(v.drv == ([] : Str)) || !(v.root == ([] : Str))) = true := by
    simp [h2]
  unfold formatPP formatParsedParts
  rw [hc1, hc2]
  simp [h1]

theorem formatPP_relative (v : ParsedParts) (h1 : v.drv = []) (h2 : v.root = []) :
    formatPP v = joinSep v.parts := by
  unfold formatPP formatParsedParts
  rw [h1, h2]
  simp

/-- C5 (amended): for every path string whose parse succeeds, formatting
and re-parsing yields the same Path Value — scheme, bucket and key segments
— provided the parsed bucket is not `..`, no `..` segment survives in the
parsed parts, and, for a scheme-less bucket-less (relative) result, the
first surviving part does not end in `:`. -/
theorem c5_roundtrip_amended (s : Str) (v : ParsedParts)
    (h : pathyParseParts s = some v)
    (hrootdd : v.root ≠ dotdot)
    (hdd : dotdot ∉ v.parts)
    (hcol : v.drv = [] → v.root = [] →
      ∀ (x : Str) (t : List Str), v.parts = x :: t → endsWithColon x = false) :
    ∃ v2, pathyParseParts (formatPP v) = some v2 ∧ pathValueOf v2 = pathValueOf v := by
  unfold pathyParseParts at h
  by_cases hr : (posixSplitroot s).1 = []
  · rw [posixParseParts_of_root_nil s hr] at h
    have hallclean : ∀ x ∈ posixSegs s, cleanSeg x := posixSegs_clean s
    cases hseg : posixSegs s with
    | nil =>
        rw [hseg, pathyAdjust_nil] at h
        simp only [Option.some.injEq] at h
        subst h
        refine ⟨⟨[], [], []⟩, ?_, rfl⟩
        rw [formatPP_relative _ rfl rfl]
        exact reparse_relative [] (by simp) (by simp) (by intro x t ht; cases ht)
    | cons p0 rest =>
        rw [hseg] at h
        have hp0clean : cleanSeg p0 := hallclean p0 (by rw [hseg]; simp)
        by_cases hcolp : endsWithColon p0 = true
        · cases rest with
          | nil =>
              rw [pathyAdjust_scheme_single _ _ hcolp] at h
              simp at h
          | cons p1 rest2 =>
              rw [pathyAdjust_scheme _ _ _ _ hcolp] at h
              cases hloop : ddLoop (p1 :: rest2) (p0 :: p1 :: rest2) with
              | none => rw [hloop] at h; simp at h
              | some parsed =>
                  rw [hloop] at h
                  simp only [Option.some.injEq] at h
                  subst h
                  have hsub := ddLoop_sublist _ _ _ hloop
                  have hmem : ∀ x ∈ parsed, cleanSeg x := fun x hx =>
                    hallclean x (by rw [hseg]; exact hsub.subset hx)
                  have hp1 : cleanSeg p1 := hallclean p1 (by rw [hseg]; simp)
                  refine ⟨⟨p0, p1, p0 :: p1 :: parsed.drop 2⟩, ?_, rfl⟩
                  rw [formatPP_scheme _ hp0clean.1 hp1.1]
                  exact reparse_scheme p0 p1 (parsed.drop 2)
                    hp0clean.1 hp0clean.2.2 hcolp hp1 hrootdd
                    (fun x hx => hmem x (List.drop_subset _ _ hx))
                    (fun x hx he => hdd (he ▸ List.drop_subset _ _ hx))
        · rw [pathyAdjust_noscheme _ _ _ hcolp] at h
          cases hloop : ddLoop rest (p0 :: rest) with
          | none => rw [hloop] at h; simp at h
          | some parsed =>
              rw [hloop] at h
              simp only [Option.some.injEq] at h
              subst h
              have hsub := ddLoop_sublist _ _ _ hloop
              have hmem : ∀ x ∈ parsed, cleanSeg x := fun x hx =>
                hallclean x (by rw [hseg]; exact hsub.subset hx)
              refine ⟨⟨[], [], parsed⟩, ?_, rfl⟩
              rw [formatPP_relative _ rfl rfl]
              exact reparse_relative parsed hmem
                (fun x hx he => hdd (he ▸ hx)) (hcol rfl rfl)
  · rw [posixParseParts_of_root_ne s hr] at h
    have hroot0 : (posixSplitroot s).1 = ['/'] ∨ (posixSplitroot s).1 = ['/', '/'] := by
      rcases posixSplitroot_cases s with h1 | h1 | h1
      · exact absurd h1 hr
      · exact Or.inl h1
      · exact Or.inr h1
    have hcolr : ¬ endsWithColon (posixSplitroot s).1 = true := by
      rcases hroot0 with h1 | h1 <;> rw [h1] <;> decide
    rw [pathyAdjust_noscheme _ _ _ hcolr] at h
    cases hloop : ddLoop (posixSegs s) ((posixSplitroot s).1 :: posixSegs s) with
    | none => rw [hloop] at h; simp at h
    | some parsed =>
        rw [hloop] at h
        simp only [Option.some.injEq] at h
        subst h
        have hsub := ddLoop_sublist _ _ _ hloop
        have hdrop1 : ∀ x ∈ parsed.drop 1, x ∈ posixSegs s := by
          rcases List.sublist_cons_iff.mp hsub with h1 | ⟨r, h1, h2⟩
          · intro x hx
            exact h1.subset (List.drop_subset _ _ hx)
          · intro x hx
            rw [h1] at hx
            simp only [List.drop_succ_cons, List.drop_zero] at hx
            exact h2.subset hx
        have hmem1 : ∀ x ∈ parsed.drop 1, cleanSeg x := fun x hx =>
          posixSegs_clean s x (hdrop1 x hx)
        refine ⟨⟨[], (posixSplitroot s).1, (posixSplitroot s).1 :: parsed.drop 1⟩, ?_, ?_⟩
        · rw [formatPP_rooted _ rfl (by rcases hroot0 with h1 | h1 <;> rw [h1] <;> simp)]
          exact reparse_rooted _ hroot0 (parsed.drop 1) hmem1
            (fun x hx he => hdd (he ▸ List.drop_subset _ _ hx))
        · unfold pathValueOf
          simp only [List.drop_succ_cons, List.drop_drop]

/-- C5 counterexample to the claim as stated: the relative path string
`a/../b:/c` parses (scheme ` `, bucket ` `, key ` `), but the `..` loop
leaves `b:` as the first surviving part, so the formatted string `b:/c`
re-parses with scheme `b:` and bucket `c` — a different Path Value. -/
theorem c5_counterexample :
    pathyParseParts "a/../b:/c".data =
      some ⟨[], [], [['b', ':'], ['c']]⟩ ∧
    formatPP ⟨[], [], [['b', ':'], ['c']]⟩ = "b:/c".data ∧
    pathyParseParts "b:/c".data =
      some ⟨['b', ':'], ['c'], [['b', ':'], ['c']]⟩ ∧
    pathValueOf ⟨['b', ':'], ['c'], [['b', ':'], ['c']]⟩ ≠
      pathValueOf ⟨[], [], [['b', ':'], ['c']]⟩ := by decide

/-- Witness for `c5_roundtrip_amended` at the concrete string `gs://foo/bar`. -/
theorem c5_witness :
    ∃ v2, pathyParseParts (formatPP ⟨['g', 's', ':'], ['f', 'o', 'o'],
        [['g', 's', ':'], ['f', 'o', 'o'], ['b', 'a', 'r']]⟩) = some v2 ∧
      pathValueOf v2 = pathValueOf ⟨['g', 's', ':'], ['f', 'o', 'o'],
        [['g', 's', ':'], ['f', 'o', 'o'], ['b', 'a', 'r']]⟩ :=
  c5_roundtrip_amended "gs://foo/bar".data
    ⟨['g', 's', ':'], ['f', 'o', 'o'], [['g', 's', ':'], ['f', 'o', 'o'], ['b', 'a', 'r']]⟩
    (by decide) (by decide) (by decide)
    (fun hdrv => absurd hdrv (by decide))

/-! ## `Pathy.fluid` (C10) -/

/-- The result of `Pathy.fluid`: either a plain local `BasePath` wrapping
the original input, or a bucket-storage `Pathy` wrapping the parse. -/
inductive FluidResult
  | base (s : Str)
  | pathy (v : ParsedParts)
deriving DecidableEq

/-- `Pathy.fluid`: construct a `Pathy` from the input; if the parsed root is
`/` or empty (`from_path.root in ["/", ""]`), return a `BasePath` over the
same input instead.  `none` models the `ValueError` raised while
constructing `Pathy(path_candidate)`. -/
def pathyFluid (s : Str) : Option FluidResult :=
  match pathyParseParts s with
  | none => none
  | some v =>
      if v.root == ['/'] || v.root == [] then some (.base s) else some (.pathy v)

/-- C10: `Pathy.fluid` returns a plain local `BasePath` exactly when the
string parses to a path whose root is `/` or empty (i.e. no bucket), and a
bucket-storage `Pathy` otherwise. -/
theorem c10_fluid_base_iff (s : Str) (v : ParsedParts)
    (h : pathyParseParts s = some v) :
    (v.root = ['/'] ∨ v.root = [] → pathyFluid s = some (.base s)) ∧
    (v.root ≠ ['/'] ∧ v.root ≠ [] → pathyFluid s = some (.pathy v)) := by
  unfold pathyFluid
  rw [h]
  dsimp only
  constructor
  · intro hr
    have hc : (v.root == ['/'] || v.root == ([] : Str)) = true := by
      rcases hr with h1 | h1 <;> simp [h1]
    rw [if_pos hc]
  · intro hr
    rw [if_neg (by simp [hr.1, hr.2])]

/-- Witness for `c10_fluid_base_iff`: `/tmp/file.txt` yields a `BasePath`,
`gs://bucket/key` yields a `Pathy`. -/
theorem c10_witness :
    pathyFluid "/tmp/file.txt".data = some (.base "/tmp/file.txt".data) ∧
    pathyFluid "gs://bucket/key".data = some (.pathy
      ⟨"gs:".data, "bucket".data, ["gs:".data, "bucket".data, "key".data]⟩) := by
  constructor
  · exact (c10_fluid_base_iff "/tmp/file.txt".data
      ⟨[], ['/'], [['/'], "tmp".data, "file.txt".data]⟩ (by decide)).1 (Or.inl rfl)
  · exact (c10_fluid_base_iff "gs://bucket/key".data
      ⟨"gs:".data, "bucket".data, ["gs:".data, "bucket".data, "key".data]⟩
      (by decide)).2 (by decide)

/-! ## The abstract flat blob store (C1-C4)

The directory-emulation claims concern `BucketsAccessor` / `Pathy` methods
composed with a backend client.  The backend is modelled as a flat store:
a set of buckets and a list of blobs with string keys.  `list_blobs` with a
prefix yields exactly the blobs of the bucket whose key starts with that
prefix (the `BucketClient` contract of the spec, matched by the adapters),
and `is_dir` is the base-class default
`BucketClient.is_dir(path) = any(self.list_blobs(path, prefix=path.prefix))`.
`BucketClientFS.exists` tests whether `root/bucket/key` exists on disk;
since the FS adapter creates directories only as blob containers and prunes
emptied ones (`BlobFS.delete`), that disk path exists exactly when the key
is an exact blob key or some blob lies strictly under `key + "/"`, which is
how `clientExistsFS` is modelled. -/

structure StoreBlob where
  bucket : Str
  key : Str
  content : String
  updated : Nat
deriving DecidableEq, Repr

structure Store where
  buckets : List Str
  blobs : List StoreBlob
deriving DecidableEq, Repr

/-- Store sanity: every blob lives in a listed bucket. -/
def Store.Valid (st : Store) : Prop := ∀ b ∈ st.blobs, b.bucket ∈ st.buckets

/-- Store sanity: at most one blob per `(bucket, key)` pair. -/
def Store.UniqueKeys (st : Store) : Prop :=
  st.blobs.Pairwise fun a b => a.bucket ≠ b.bucket ∨ a.key ≠ b.key

instance (st : Store) : Decidable st.Valid := by
  unfold Store.Valid
  infer_instance

instance (st : Store) : Decidable st.UniqueKeys := by
  unfold Store.UniqueKeys
  infer_instance

/-- An absolute `Pathy` path: the bucket (pathlib's root) and an optional
key (`PurePathy.key`, which is `None` for a bucket-only path and never the
empty string). -/
structure PathK where
  bucket : Str
  key : Option Str
deriving DecidableEq, Repr

/-- Python `str(path.key)`: `str(None)` is the literal string `None`. -/
def strOptKey : Option Str → Str
  | none => "None".data
  | some k => k

/-- `PurePathy.prefix`: the key followed by the separator, or empty when
there is no key. -/
def keyPfx (p : PathK) : Str :=
  match p.key with
  | none => []
  | some k => k ++ ['/']

/-- `BucketClientFS.lookup_bucket`: the bucket when the path has a root and
the bucket exists, else `None` (no error). -/
def lookupBucket (st : Store) (p : PathK) : Option Str :=
  if p.bucket ≠ [] ∧ p.bucket ∈ st.buckets then some p.bucket else none

/-- `Bucket.get_blob(name)`: the blob at exactly this key, if any. -/
def getBlobIn (st : Store) (b k : Str) : Option StoreBlob :=
  st.blobs.find? fun bl => bl.bucket == b && bl.key == k

/-- `client.list_blobs(path, prefix)`: the blobs of the bucket whose key
starts with the prefix (all blobs of the bucket when the prefix is `None`). -/
def listBlobs (st : Store) (b : Str) (pfx : Option Str) : List StoreBlob :=
  st.blobs.filter fun bl =>
    bl.bucket == b &&
      (match pfx with
       | none => true
       | some q => q.isPrefixOf bl.key)

/-- `BucketClient.is_dir` (base-class default):
`any(self.list_blobs(path, prefix=path.prefix))`. -/
def clientIsDir (st : Store) (p : PathK) : Bool :=
  !(listBlobs st p.bucket (some (keyPfx p))).isEmpty

/-- `BucketClientFS.exists`: the disk path `root/bucket/key` exists (see
the section comment for the directory invariant). -/
def clientExistsFS (st : Store) (p : PathK) : Bool :=
  match p.key with
  | none => st.buckets.contains p.bucket
  | some k =>
      (getBlobIn st p.bucket k).isSome ||
        !(listBlobs st p.bucket (some (k ++ ['/']))).isEmpty

/-- `BucketsAccessor.get_blob`. -/
def accessorGetBlob (st : Store) (p : PathK) : Option StoreBlob :=
  if p.bucket = [] then none
  else
    match lookupBucket st p with
    | none => none
    | some b => getBlobIn st b (strOptKey p.key)

/-- `BucketsAccessor.exists` composed with the FS client. -/
def accessorExists (st : Store) (p : PathK) : Bool :=
  if p.bucket = [] then !st.buckets.isEmpty
  else
    match lookupBucket st p with
    | none => false
    | some b =>
        if !(st.buckets.contains b) then false
        else
          match p.key with
          | none => true
          | some k =>
              match getBlobIn st b k with
              | some _ => true
              | none => clientExistsFS st p

/-- `BucketsAccessor.is_dir`: an existing exact blob is never a directory;
otherwise ask the client. -/
def accessorIsDir (st : Store) (p : PathK) : Bool :=
  match accessorGetBlob st p with
  | some _ => false
  | none => clientIsDir st p

/-- `Pathy.is_dir`: for an absolute path, `self.bucket` is always truthy,
so a key-less path is a directory; otherwise defer to the accessor. -/
def pathyIsDir (st : Store) (p : PathK) : Bool :=
  match p.key with
  | none => true
  | some _ => accessorIsDir st p

/-- The error taxonomy surfaced by the modelled operations. -/
inductive PErr
  | notFound
  | notADirectory
  | valueError
deriving DecidableEq, Repr

/-- `BucketClientFS.get_bucket`: `ValueError` without a root,
`FileNotFoundError` when the bucket directory is missing. -/
def getBucket (st : Store) (p : PathK) : Except PErr Str :=
  if p.bucket = [] then .error .valueError
  else if st.buckets.contains p.bucket then .ok p.bucket
  else .error .notFound

/-- `BucketsAccessor.stat`: `get_bucket`, then the exact blob, else
`FileNotFoundError`. -/
def accessorStat (st : Store) (p : PathK) : Except PErr StoreBlob :=
  match getBucket st p with
  | .error e => .error e
  | .ok b =>
      match getBlobIn st b (strOptKey p.key) with
      | none => .error .notFound
      | some bl => .ok bl

/-- `Pathy.is_file`: `False` without a key, else whether `stat()` succeeds
(`ClientError` / `FileNotFoundError` are swallowed). -/
def pathyIsFile (st : Store) (p : PathK) : Bool :=
  match p.key with
  | none => false
  | some _ =>
      match accessorStat st p with
      | .ok _ => true
      | .error _ => false

/-- Python `str.replace(old, new)`: replace all non-overlapping occurrences
left to right.  (`old` is non-empty at every call site modelled here; for an
empty `old` Python would also interleave `new` between characters, which
this model does not reproduce.) -/
def pyReplace (old new : Str) : Str → Str
  | [] => []
  | c :: rest =>
      if h : old ≠ [] ∧ old.isPrefixOf (c :: rest) then
        new ++ pyReplace old new ((c :: rest).drop old.length)
      else c :: pyReplace old new rest
termination_by s => s.length
decreasing_by
  · simp only [List.length_drop]
    have h1 : 1 ≤ old.length := by
      cases hol : old with
      | nil => exact absurd hol h.1
      | cons a as => simp
    simp only [List.length_cons]
    omega
  · simp

/-- Copy a blob's bytes to `(b, k)`, overwriting any blob already there
(`shutil.copy` semantics of `BucketFS.copy_blob`). -/
def putBlob (st : Store) (b k : Str) (content : String) (updated : Nat) : Store :=
  { st with blobs := ⟨b, k, content, updated⟩ ::
      st.blobs.filter fun bl => !(bl.bucket == b && bl.key == k) }

/-- Delete the blob at `(b, k)` (`Bucket.delete_blob`). -/
def removeBlob (st : Store) (b k : Str) : Store :=
  { st with blobs := st.blobs.filter fun bl => !(bl.bucket == b && bl.key == k) }

/-- A copy or delete primitive issued by `rename`, in issue order. -/
inductive RenOp
  | copy (bucket srcKey dstBucket dstKey : Str)
  | delete (bucket key : Str)
deriving DecidableEq, Repr

/-- Is this trace operation a copy? -/
def RenOp.isCopy : RenOp → Bool
  | .copy _ _ _ _ => true
  | .delete _ _ => false

/-- `client.list_blobs(path, prefix, delimiter=sep)` under the client
contract: the delimiter groups deeper keys into common prefixes, so only
blobs lying exactly one level below the prefix (no separator left in the
key after the prefix) are returned as blobs. -/
def listBlobsDelim (st : Store) (b : Str) (pre : Str) : List StoreBlob :=
  st.blobs.filter fun bl =>
    (bl.bucket == b && pre.isPrefixOf bl.key) &&
      !((bl.key.drop pre.length).contains '/')

/-- `BucketsAccessor.rename` over the abstract client, also emitting the
trace of copy/delete primitives in the order they are issued.  The single
blob branch copies then deletes; the folder branch lists the blobs under
`path.prefix` with `delimiter=sep` (one level deep, per the client
contract), copies each to `blob.name.replace(str(path.key),
str(target.key))`, and only then deletes every listed original. -/
def accessorRename (st : Store) (p t : PathK) : Except PErr (Store × List RenOp) :=
  match getBucket st p with
  | .error e => .error e
  | .ok srcB =>
      match getBucket st t with
      | .error e => .error e
      | .ok dstB =>
          if !(accessorIsDir st p) then
            match getBlobIn st srcB (strOptKey p.key) with
            | none => .error .notFound
            | some bl =>
                .ok (removeBlob (putBlob st dstB (strOptKey t.key) bl.content bl.updated)
                      srcB bl.key,
                  [.copy srcB bl.key dstB (strOptKey t.key), .delete srcB bl.key])
          else
            .ok ((((listBlobsDelim st srcB (keyPfx p)).foldl
                    (fun acc bl => removeBlob acc srcB bl.key)
                    ((listBlobsDelim st srcB (keyPfx p)).foldl
                      (fun acc bl => putBlob acc dstB
                        (pyReplace (strOptKey p.key) (strOptKey t.key) bl.key)
                        bl.content bl.updated) st))),
              ((listBlobsDelim st srcB (keyPfx p)).map fun bl =>
                RenOp.copy srcB bl.key dstB
                  (pyReplace (strOptKey p.key) (strOptKey t.key) bl.key)) ++
              ((listBlobsDelim st srcB (keyPfx p)).map fun bl =>
                RenOp.delete srcB bl.key))

/-- `BucketClientFS.delete_bucket`: remove the bucket directory and its
contents when it exists. -/
def deleteBucket (st : Store) (b : Str) : Store :=
  { buckets := st.buckets.filter fun x => !(x == b),
    blobs := st.blobs.filter fun bl => !(bl.bucket == b) }

/-- `BucketsAccessor.rmdir`: `get_bucket`, list the blobs with
`prefix=str(path.key)` (note: the bare key, no trailing separator), delete
them all, then delete the bucket (key-less path) or, if the path still is a
directory, call the client's `rmdir` (a no-op in the base client). -/
def accessorRmdir (st : Store) (p : PathK) : Except PErr Store :=
  match getBucket st p with
  | .error e => .error e
  | .ok b =>
      match p.key with
      | none =>
          .ok (deleteBucket
            ((listBlobs st b none).foldl (fun acc bl => removeBlob acc b bl.key) st) b)
      | some k =>
          .ok ((listBlobs st b (some k)).foldl (fun acc bl => removeBlob acc b bl.key) st)

/-- `Pathy.rmdir`: an exact-blob path is not a directory; a path that is
not a directory either does not exist; otherwise delete. -/
def pathyRmdir (st : Store) (p : PathK) : Except PErr Store :=
  if pathyIsFile st p then .error .notADirectory
  else if !(pathyIsDir st p) then .error .notFound
  else accessorRmdir st p

/-- The content stored at `(b, k)`. -/
def getBlobContent (st : Store) (b k : Str) : Option String :=
  (getBlobIn st b k).map (·.content)

/-! ## C1: the three-way `exists` policy -/

theorem getBlobIn_some_mem {st : Store} {b k : Str} {bl : StoreBlob}
    (h : getBlobIn st b k = some bl) :
    bl ∈ st.blobs ∧ bl.bucket = b ∧ bl.key = k := by
  unfold getBlobIn at h
  have hmem := List.mem_of_find?_eq_some h
  have hp := List.find?_some h
  simp only [Bool.and_eq_true, beq_iff_eq] at hp
  exact ⟨hmem, hp.1, hp.2⟩

theorem getBlobIn_none_iff {st : Store} {b k : Str} :
    getBlobIn st b k = none ↔ ∀ bl ∈ st.blobs, ¬(bl.bucket = b ∧ bl.key = k) := by
  unfold getBlobIn
  rw [List.find?_eq_none]
  constructor
  · intro h bl hbl hc
    exact absurd (by simp [hc.1, hc.2] : (bl.bucket == b && bl.key == k) = true)
      (h bl hbl)
  · intro h bl hbl hc
    simp only [Bool.and_eq_true, beq_iff_eq] at hc
    exact h bl hbl hc

theorem listBlobs_isEmpty_iff {st : Store} {b q : Str} :
    (listBlobs st b (some q)).isEmpty = true ↔
      ∀ bl ∈ st.blobs, ¬(bl.bucket = b ∧ q.isPrefixOf bl.key = true) := by
  unfold listBlobs
  rw [List.isEmpty_iff, List.filter_eq_nil_iff]
  constructor
  · intro h bl hbl hc
    exact absurd (by simp [hc.1, hc.2]) (h bl hbl)
  · intro h bl hbl hc
    simp only [Bool.and_eq_true, beq_iff_eq] at hc
    exact h bl hbl hc

/-- C1: `exists(p)` follows the three-way policy: with no bucket, true iff
some bucket is enumerable; bucket-only, true iff the bucket exists; with a
key, true iff an exact-key blob exists or some blob's key starts with
`key + separator` (an implied directory). -/
theorem c1_exists_policy (st : Store) (hv : st.Valid) (p : PathK) :
    (p.bucket = [] → (accessorExists st p = true ↔ st.buckets ≠ [])) ∧
    (p.bucket ≠ [] → p.key = none →
      (accessorExists st p = true ↔ p.bucket ∈ st.buckets)) ∧
    (∀ k, p.bucket ≠ [] → p.key = some k →
      (accessorExists st p = true ↔
        (∃ bl ∈ st.blobs, bl.bucket = p.bucket ∧ bl.key = k) ∨
        (∃ bl ∈ st.blobs, bl.bucket = p.bucket ∧ (k ++ ['/']).isPrefixOf bl.key = true))) := by
  refine ⟨?_, ?_, ?_⟩
  · intro hb
    unfold accessorExists
    rw [if_pos hb]
    simp [List.isEmpty_iff]
  · intro hb hk
    unfold accessorExists lookupBucket
    rw [if_neg hb]
    by_cases hmem : p.bucket ∈ st.buckets
    · rw [if_pos ⟨hb, hmem⟩]
      simp only [hk]
      simp [List.elem_iff, hmem]
    · rw [if_neg (by tauto)]
      simp [hmem]
  · intro k hb hk
    unfold accessorExists lookupBucket
    rw [if_neg hb]
    by_cases hmem : p.bucket ∈ st.buckets
    · rw [if_pos ⟨hb, hmem⟩]
      simp only [hk]
      rw [if_neg (by simp [List.elem_iff, hmem])]
      cases hgb : getBlobIn st p.bucket k with
      | some bl =>
          simp only [true_iff]
          obtain ⟨h1, h2, h3⟩ := getBlobIn_some_mem hgb
          exact Or.inl ⟨bl, h1, h2, h3⟩
      | none =>
          unfold clientExistsFS
          simp only [hk, hgb, Option.isSome_none, Bool.false_or]
          constructor
          · intro h
            rw [Bool.not_eq_true', Bool.eq_false_iff] at h
            rcases List.isEmpty_iff.not.mp (by simpa using h) with _
            have : listBlobs st p.bucket (some (k ++ ['/'])) ≠ [] := by
              intro he
              exact h (by simp [he, List.isEmpty_iff])
            rcases List.exists_mem_of_ne_nil _ this with ⟨bl, hbl⟩
            unfold listBlobs at hbl
            obtain ⟨hmem2, hcond⟩ := List.mem_filter.mp hbl
            simp only [Bool.and_eq_true, beq_iff_eq] at hcond
            exact Or.inr ⟨bl, hmem2, hcond.1, hcond.2⟩
          · intro h
            rcases h with ⟨bl, hbl, h1, h2⟩ | ⟨bl, hbl, h1, h2⟩
            · exact absurd (getBlobIn_none_iff.mp hgb bl hbl ⟨h1, h2⟩) (by simp)
            · have : bl ∈ listBlobs st p.bucket (some (k ++ ['/'])) := by
                unfold listBlobs
                exact List.mem_filter.mpr ⟨hbl, by simp [h1, h2]⟩
              simp only [Bool.not_eq_true']
              rw [Bool.eq_false_iff]
              intro he
              rw [List.isEmpty_iff] at he
              rw [he] at this
              cases this
    · rw [if_neg (by tauto)]
      simp only [Bool.false_eq_true, false_iff]
      intro h
      rcases h with ⟨bl, hbl, h1, _⟩ | ⟨bl, hbl, h1, _⟩ <;>
        exact hmem (h1 ▸ hv bl hbl)

/-- Witness for `c1_exists_policy`: after writing a single blob at
`a/b/c.txt`, `exists` is true for the implied directories `a` and `a/b` and
for the exact key. -/
theorem c1_witness :
    accessorExists ⟨["bkt".data], [⟨"bkt".data, "a/b/c.txt".data, "hi", 5⟩]⟩
      ⟨"bkt".data, some "a".data⟩ = true ∧
    accessorExists ⟨["bkt".data], [⟨"bkt".data, "a/b/c.txt".data, "hi", 5⟩]⟩
      ⟨"bkt".data, some "a/b".data⟩ = true ∧
    accessorExists ⟨["bkt".data], [⟨"bkt".data, "a/b/c.txt".data, "hi", 5⟩]⟩
      ⟨"bkt".data, some "a/b/c.txt".data⟩ = true := by
  refine ⟨?_, ?_, ?_⟩
  · exact ((c1_exists_policy _ (by decide) _).2.2 "a".data (by decide) rfl).mpr
      (by decide)
  · exact ((c1_exists_policy _ (by decide) _).2.2 "a/b".data (by decide) rfl).mpr
      (by decide)
  · exact ((c1_exists_policy _ (by decide) _).2.2 "a/b/c.txt".data (by decide) rfl).mpr
      (by decide)

/-! ## C2: `is_file` and `is_dir` are mutually exclusive -/

/-- A successful `is_file` means: the path has a root, its bucket exists,
and the exact-key blob is present. -/
theorem pathyIsFile_true_elim {st : Store} {p : PathK} {k : Str}
    (hk : p.key = some k) (hf : pathyIsFile st p = true) :
    p.bucket ≠ [] ∧ st.buckets.contains p.bucket = true ∧
      ∃ bl, getBlobIn st p.bucket k = some bl := by
  unfold pathyIsFile accessorStat getBucket at hf
  rw [hk] at hf
  dsimp only [strOptKey] at hf
  by_cases hbe : p.bucket = []
  · rw [if_pos hbe] at hf
    simp at hf
  · rw [if_neg hbe] at hf
    by_cases hbm : st.buckets.contains p.bucket = true
    · rw [if_pos hbm] at hf
      dsimp only at hf
      refine ⟨hbe, hbm, ?_⟩
      cases hgb : getBlobIn st p.bucket k with
      | none => rw [hgb] at hf; simp at hf
      | some bl => exact ⟨bl, rfl⟩
    · rw [if_neg hbm] at hf
      simp at hf

/-- C2: for every path with a key, `is_file` and `is_dir` are never both
true; every bucket-root (key-less) path has `is_dir = true` and
`is_file = false`. -/
theorem c2_file_dir_exclusive (st : Store) (p : PathK) :
    (∀ k, p.key = some k →
      (pathyIsFile st p = true → pathyIsDir st p = false) ∧
      (pathyIsDir st p = true → pathyIsFile st p = false)) ∧
    (p.key = none → pathyIsDir st p = true ∧ pathyIsFile st p = false) := by
  constructor
  · intro k hk
    have hmain : pathyIsFile st p = true → pathyIsDir st p = false := by
      intro hf
      obtain ⟨hbe, hbm, bl, hgb⟩ := pathyIsFile_true_elim hk hf
      unfold pathyIsDir accessorIsDir accessorGetBlob lookupBucket
      rw [hk]
      dsimp only
      rw [if_neg hbe, if_pos ⟨hbe, by simpa [List.elem_iff] using hbm⟩]
      dsimp only [strOptKey]
      rw [hgb]
    refine ⟨hmain, ?_⟩
    intro hd
    cases hf : pathyIsFile st p with
    | false => rfl
    | true => rw [hmain hf] at hd; cases hd
  · intro hk
    unfold pathyIsDir pathyIsFile
    rw [hk]
    exact ⟨rfl, rfl⟩

/-- Witness for `c2_file_dir_exclusive`: in a store holding the blob
`a/b.txt`, the exact-blob path is a file and hence not a directory, and the
bucket root is a directory and not a file. -/
theorem c2_witness :
    pathyIsDir ⟨["bkt".data], [⟨"bkt".data, "a/b.txt".data, "hi", 5⟩]⟩
      ⟨"bkt".data, some "a/b.txt".data⟩ = false ∧
    pathyIsDir ⟨["bkt".data], [⟨"bkt".data, "a/b.txt".data, "hi", 5⟩]⟩
      ⟨"bkt".data, none⟩ = true := by
  constructor
  · exact ((c2_file_dir_exclusive ⟨["bkt".data], [⟨"bkt".data, "a/b.txt".data, "hi", 5⟩]⟩
      ⟨"bkt".data, some "a/b.txt".data⟩).1 "a/b.txt".data rfl).1 (by decide)
  · exact ((c2_file_dir_exclusive ⟨["bkt".data], [⟨"bkt".data, "a/b.txt".data, "hi", 5⟩]⟩
      ⟨"bkt".data, none⟩).2 rfl).1

/-! ## C4: `rmdir` policy -/

theorem mem_removeBlob {st : Store} {b k : Str} {bl : StoreBlob} :
    bl ∈ (removeBlob st b k).blobs ↔
      bl ∈ st.blobs ∧ ¬(bl.bucket = b ∧ bl.key = k) := by
  unfold removeBlob
  simp only [List.mem_filter, Bool.not_eq_true', Bool.and_eq_false_iff]
  constructor
  · rintro ⟨h1, h2⟩
    refine ⟨h1, ?_⟩
    rintro ⟨hb, hk⟩
    rcases h2 with h2 | h2 <;> simp [hb, hk] at h2
  · rintro ⟨h1, h2⟩
    refine ⟨h1, ?_⟩
    by_cases hb : bl.bucket = b
    · right
      rw [beq_eq_false_iff_ne]
      exact fun hk => h2 ⟨hb, hk⟩
    · left
      rw [beq_eq_false_iff_ne]
      exact hb

theorem mem_listBlobs_some {st : Store} {b q : Str} {bl : StoreBlob} :
    bl ∈ listBlobs st b (some q) ↔
      bl ∈ st.blobs ∧ bl.bucket = b ∧ q.isPrefixOf bl.key = true := by
  unfold listBlobs
  rw [List.mem_filter]
  simp

theorem foldl_removeBlob_buckets (bs : List StoreBlob) (b : Str) :
    ∀ st : Store,
      (bs.foldl (fun acc x => removeBlob acc b x.key) st).buckets = st.buckets := by
  induction bs with
  | nil => intro st; rfl
  | cons x rest ih => intro st; exact ih (removeBlob st b x.key)

theorem mem_foldl_removeBlob (bs : List StoreBlob) (b : Str) (bl : StoreBlob) :
    ∀ st : Store,
      (bl ∈ (bs.foldl (fun acc x => removeBlob acc b x.key) st).blobs ↔
        bl ∈ st.blobs ∧ ∀ x ∈ bs, ¬(bl.bucket = b ∧ bl.key = x.key)) := by
  induction bs with
  | nil => intro st; simp
  | cons x rest ih =>
      intro st
      rw [List.foldl_cons, ih (removeBlob st b x.key), mem_removeBlob]
      constructor
      · rintro ⟨⟨h1, h2⟩, h3⟩
        refine ⟨h1, ?_⟩
        intro y hy
        rcases List.mem_cons.mp hy with hy | hy
        · exact hy ▸ h2
        · exact h3 y hy
      · rintro ⟨h1, h2⟩
        exact ⟨⟨h1, h2 x (List.mem_cons_self _ _)⟩,
          fun y hy => h2 y (List.mem_cons_of_mem _ hy)⟩

theorem isPrefixOf_of_append_sep {k key : Str}
    (h : (k ++ ['/']).isPrefixOf key = true) : k.isPrefixOf key = true := by
  rw [List.isPrefixOf_iff_prefix] at h ⊢
  exact (List.prefix_append k ['/']).trans h

/-- C4: `rmdir` raises `NotADirectory` on an exact-key blob, `NotFound`
when the keyed path is not an implied directory, and otherwise deletes
every blob whose key shares the (bare string) prefix, after which
`exists(p)` is false. -/
theorem c4_rmdir_policy (st : Store) (p : PathK) (k : Str) (hk : p.key = some k) :
    (pathyIsFile st p = true → pathyRmdir st p = .error .notADirectory) ∧
    (pathyIsFile st p = false → pathyIsDir st p = false →
      pathyRmdir st p = .error .notFound) ∧
    (∀ st2, pathyRmdir st p = .ok st2 →
      (∀ bl ∈ st.blobs, bl.bucket = p.bucket → k.isPrefixOf bl.key = true →
        getBlobIn st2 p.bucket bl.key = none) ∧
      accessorExists st2 p = false) := by
  refine ⟨?_, ?_, ?_⟩
  · intro hf
    unfold pathyRmdir
    rw [if_pos hf]
  · intro hf hd
    unfold pathyRmdir
    rw [if_neg (by simp [hf]), if_pos (by simp [hd])]
  · intro st2 hok
    unfold pathyRmdir at hok
    by_cases hf : pathyIsFile st p = true
    · rw [if_pos hf] at hok; cases hok
    · rw [if_neg hf] at hok
      by_cases hd : pathyIsDir st p = true
      · rw [if_neg (by simp [hd])] at hok
        unfold accessorRmdir at hok
        cases hb : getBucket st p with
        | error e => rw [hb] at hok; cases hok
        | ok b =>
            rw [hb] at hok
            rw [hk] at hok
            dsimp only at hok
            have hbval : b = p.bucket ∧ p.bucket ≠ [] ∧
                st.buckets.contains p.bucket = true := by
              unfold getBucket at hb
              by_cases h1 : p.bucket = []
              · rw [if_pos h1] at hb; cases hb
              · rw [if_neg h1] at hb
                by_cases h2 : st.buckets.contains p.bucket = true
                · rw [if_pos h2] at hb
                  injection hb with hb
                  exact ⟨hb.symm, h1, h2⟩
                · rw [if_neg h2] at hb; cases hb
            obtain ⟨hbeq, hbne, hbmem⟩ := hbval
            subst hbeq
            injection hok with hok
            subst hok
            have hdel : ∀ bl2 ∈ st.blobs, bl2.bucket = p.bucket → k.isPrefixOf bl2.key = true →
                ∀ bl3, bl3 ∈ st.blobs ∧
                    (∀ x ∈ listBlobs st p.bucket (some k),
                      ¬(bl3.bucket = p.bucket ∧ bl3.key = x.key)) →
                  ¬(bl3.bucket = p.bucket ∧ bl3.key = bl2.key) := by
              intro bl2 h1 h2 h3 bl3 ⟨h4, h5⟩ ⟨h6, h7⟩
              exact h5 bl2 (mem_listBlobs_some.mpr ⟨h1, h2, h3⟩) ⟨h6, h7⟩
            constructor
            · intro bl hbl hblb hblk
              rw [getBlobIn_none_iff]
              intro bl3 hbl3
              rw [mem_foldl_removeBlob] at hbl3
              exact hdel bl hbl hblb hblk bl3 hbl3
            · unfold accessorExists lookupBucket
              rw [if_neg hbne]
              have hbuk :
                  ((listBlobs st p.bucket (some k)).foldl
                    (fun acc x => removeBlob acc p.bucket x.key) st).buckets = st.buckets :=
                foldl_removeBlob_buckets _ _ _
              rw [hbuk, if_pos ⟨hbne, by simpa [List.elem_iff] using hbmem⟩]
              dsimp only
              rw [if_neg (by simp [List.elem_iff] at hbmem ⊢; simp [hbmem]), hk]
              dsimp only
              have hexact : getBlobIn
                  ((listBlobs st p.bucket (some k)).foldl (fun acc x => removeBlob acc p.bucket x.key) st)
                  p.bucket k = none := by
                rw [getBlobIn_none_iff]
                intro bl3 hbl3 hc
                rw [mem_foldl_removeBlob] at hbl3
                refine hbl3.2 bl3 (mem_listBlobs_some.mpr ⟨hbl3.1, hc.1, ?_⟩) ⟨hc.1, rfl⟩
                rw [hc.2, List.isPrefixOf_iff_prefix]
              rw [hexact]
              show clientExistsFS _ p = false
              unfold clientExistsFS
              rw [hk]
              dsimp only
              rw [hexact]
              have hemp : (listBlobs
                  ((listBlobs st p.bucket (some k)).foldl (fun acc x => removeBlob acc p.bucket x.key) st)
                  p.bucket (some (k ++ ['/']))).isEmpty = true := by
                rw [listBlobs_isEmpty_iff]
                intro bl3 hbl3 hc
                rw [mem_foldl_removeBlob] at hbl3
                exact hbl3.2 bl3
                  (mem_listBlobs_some.mpr
                    ⟨hbl3.1, hc.1, isPrefixOf_of_append_sep hc.2⟩)
                  ⟨hc.1, rfl⟩
              rw [hemp]
              rfl
      · rw [if_pos (by simp [hd])] at hok; cases hok

/-- Witness for `c4_rmdir_policy`: with blobs `a/x`, `a/y`, `b`, `rmdir` of
the exact-blob path `b` raises `NotADirectory`, `rmdir` of the absent
`zzz` raises `NotFound`, and after `rmdir` of the prefix `a` the blobs
under it are gone and `exists(a)` is false. -/
theorem c4_witness :
    pathyRmdir ⟨["bkt".data], [⟨"bkt".data, "a/x".data, "c1", 1⟩,
        ⟨"bkt".data, "a/y".data, "c2", 2⟩, ⟨"bkt".data, "b".data, "c3", 3⟩]⟩
      ⟨"bkt".data, some "b".data⟩ = .error .notADirectory ∧
    pathyRmdir ⟨["bkt".data], [⟨"bkt".data, "a/x".data, "c1", 1⟩,
        ⟨"bkt".data, "a/y".data, "c2", 2⟩, ⟨"bkt".data, "b".data, "c3", 3⟩]⟩
      ⟨"bkt".data, some "zzz".data⟩ = .error .notFound ∧
    getBlobIn ⟨["bkt".data], [⟨"bkt".data, "b".data, "c3", 3⟩]⟩
      "bkt".data "a/x".data = none ∧
    accessorExists ⟨["bkt".data], [⟨"bkt".data, "b".data, "c3", 3⟩]⟩
      ⟨"bkt".data, some "a".data⟩ = false := by
  refine ⟨?_, ?_, ?_, ?_⟩
  · exact (c4_rmdir_policy _ ⟨"bkt".data, some "b".data⟩ "b".data rfl).1 (by decide)
  · exact (c4_rmdir_policy _ ⟨"bkt".data, some "zzz".data⟩ "zzz".data rfl).2.1
      (by decide) (by decide)
  · exact ((c4_rmdir_policy ⟨["bkt".data], [⟨"bkt".data, "a/x".data, "c1", 1⟩,
        ⟨"bkt".data, "a/y".data, "c2", 2⟩, ⟨"bkt".data, "b".data, "c3", 3⟩]⟩
      ⟨"bkt".data, some "a".data⟩ "a".data rfl).2.2
      ⟨["bkt".data], [⟨"bkt".data, "b".data, "c3", 3⟩]⟩ (by rfl)).1
      ⟨"bkt".data, "a/x".data, "c1", 1⟩ (by decide) (by decide) (by decide)
  · exact ((c4_rmdir_policy ⟨["bkt".data], [⟨"bkt".data, "a/x".data, "c1", 1⟩,
        ⟨"bkt".data, "a/y".data, "c2", 2⟩, ⟨"bkt".data, "b".data, "c3", 3⟩]⟩
      ⟨"bkt".data, some "a".data⟩ "a".data rfl).2.2
      ⟨["bkt".data], [⟨"bkt".data, "b".data, "c3", 3⟩]⟩ (by rfl)).2

/-! ## C3: `rename` -/

/-- `pat` occurs somewhere inside `s`. -/
def occursIn (pat s : Str) : Prop := ∃ l r, s = l ++ pat ++ r

theorem pyReplace_no_occur {pat new : Str} (hp : pat ≠ []) :
    ∀ {s : Str}, ¬ occursIn pat s → pyReplace pat new s = s := by
  intro s
  induction s with
  | nil => intro _; rw [pyReplace]
  | cons c rest ih =>
      intro h
      rw [pyReplace]
      rw [dif_neg]
      · rw [ih]
        intro ⟨l, r, hlr⟩
        exact h ⟨c :: l, r, by rw [hlr]; rfl⟩
      · rintro ⟨-, hpre⟩
        rw [List.isPrefixOf_iff_prefix] at hpre
        obtain ⟨r, hr⟩ := hpre
        exact h ⟨[], r, by rw [← hr]; rfl⟩

theorem pyReplace_leading {pat new rest : Str} (hp : pat ≠ [])
    (h : ¬ occursIn pat rest) : pyReplace pat new (pat ++ rest) = new ++ rest := by
  cases hpat : pat with
  | nil => exact absurd hpat hp
  | cons p0 pt =>
      rw [← hpat]
      have hcons : pat ++ rest = p0 :: (pt ++ rest) := by rw [hpat]; rfl
      rw [hcons, pyReplace, dif_pos]
      · rw [← hcons, List.drop_left, pyReplace_no_occur hp h]
      · exact ⟨hp, by rw [← hcons, List.isPrefixOf_iff_prefix]; exact List.prefix_append _ _⟩

theorem mem_putBlob {st : Store} {b k : Str} {c : String} {u : Nat} {bl : StoreBlob} :
    bl ∈ (putBlob st b k c u).blobs ↔
      bl = ⟨b, k, c, u⟩ ∨ (bl ∈ st.blobs ∧ ¬(bl.bucket = b ∧ bl.key = k)) := by
  unfold putBlob
  simp only [List.mem_cons, List.mem_filter, Bool.not_eq_true', Bool.and_eq_false_iff,
    beq_eq_false_iff_ne]
  constructor
  · rintro (h | ⟨h1, h2⟩)
    · exact Or.inl h
    · exact Or.inr ⟨h1, fun hc => by rcases h2 with h2 | h2 <;> exact h2 (by tauto)⟩
  · rintro (h | ⟨h1, h2⟩)
    · exact Or.inl h
    · refine Or.inr ⟨h1, ?_⟩
      by_cases hb : bl.bucket = b
      · exact Or.inr fun hk => h2 ⟨hb, hk⟩
      · exact Or.inl hb

theorem find?_filter_of_imp {α : Type} (p q : α → Bool) (l : List α)
    (h : ∀ a, p a = true → q a = true) :
    (l.filter q).find? p = l.find? p := by
  induction l with
  | nil => rfl
  | cons a rest ih =>
      by_cases hq : q a = true
      · rw [List.filter_cons_of_pos hq]
        by_cases hpa : p a = true
        · rw [List.find?_cons_of_pos _ hpa, List.find?_cons_of_pos _ hpa]
        · rw [List.find?_cons_of_neg _ hpa, List.find?_cons_of_neg _ hpa, ih]
      · rw [List.filter_cons_of_neg hq]
        have hpa : ¬ p a = true := fun hpa => hq (h a hpa)
        rw [List.find?_cons_of_neg _ hpa, ih]

theorem getBlobIn_putBlob_same (st : Store) (b k : Str) (c : String) (u : Nat) :
    getBlobIn (putBlob st b k c u) b k = some ⟨b, k, c, u⟩ := by
  unfold getBlobIn putBlob
  rw [List.find?_cons_of_pos _ (by simp)]

theorem getBlobIn_putBlob_other {st : Store} {b k b2 k2 : Str} {c : String} {u : Nat}
    (h : ¬(b2 = b ∧ k2 = k)) :
    getBlobIn (putBlob st b k c u) b2 k2 = getBlobIn st b2 k2 := by
  unfold getBlobIn putBlob
  rw [List.find?_cons_of_neg _ (by
    simp only [Bool.and_eq_true, beq_iff_eq, not_and]
    intro hb hk
    exact absurd ⟨hb.symm ▸ rfl, hk.symm ▸ rfl⟩ h)]
  apply find?_filter_of_imp
  intro a ha
  simp only [Bool.and_eq_true, beq_iff_eq] at ha
  simp only [Bool.not_eq_true', Bool.and_eq_false_iff, beq_eq_false_iff_ne]
  by_cases hb : a.bucket = b
  · right
    intro hk
    exact h ⟨hb ▸ ha.1.symm ▸ rfl, hk ▸ ha.2.symm ▸ rfl⟩
  · exact Or.inl hb

theorem getBlobIn_removeBlob_same (st : Store) (b k : Str) :
    getBlobIn (removeBlob st b k) b k = none := by
  unfold getBlobIn removeBlob
  rw [List.find?_eq_none]
  intro bl hbl
  obtain ⟨-, hcond⟩ := List.mem_filter.mp hbl
  simp only [Bool.not_eq_true'] at hcond
  simp [hcond]

theorem getBlobIn_removeBlob_other {st : Store} {b k b2 k2 : Str}
    (h : ¬(b2 = b ∧ k2 = k)) :
    getBlobIn (removeBlob st b k) b2 k2 = getBlobIn st b2 k2 := by
  unfold getBlobIn removeBlob
  apply find?_filter_of_imp
  intro a ha
  simp only [Bool.and_eq_true, beq_iff_eq] at ha
  simp only [Bool.not_eq_true', Bool.and_eq_false_iff, beq_eq_false_iff_ne]
  by_cases hb : a.bucket = b
  · right
    intro hk
    exact h ⟨hb ▸ ha.1.symm ▸ rfl, hk ▸ ha.2.symm ▸ rfl⟩
  · exact Or.inl hb

theorem copyFold_buckets (g : StoreBlob → Str) (dstB : Str) (bs : List StoreBlob) :
    ∀ st : Store,
      (bs.foldl (fun acc bl => putBlob acc dstB (g bl) bl.content bl.updated) st).buckets =
        st.buckets := by
  induction bs with
  | nil => intro st; rfl
  | cons x rest ih => intro st; exact ih _

theorem getBlobIn_copyFold_miss (g : StoreBlob → Str) (dstB : Str) {b2 k2 : Str} :
    ∀ (bs : List StoreBlob) (st : Store),
      (∀ bl ∈ bs, ¬(b2 = dstB ∧ k2 = g bl)) →
      getBlobIn (bs.foldl (fun acc bl => putBlob acc dstB (g bl) bl.content bl.updated) st)
        b2 k2 = getBlobIn st b2 k2 := by
  intro bs
  induction bs with
  | nil => intro st _; rfl
  | cons x rest ih =>
      intro st h
      rw [List.foldl_cons, ih _ fun bl hbl => h bl (List.mem_cons_of_mem _ hbl),
        getBlobIn_putBlob_other (h x (List.mem_cons_self _ _))]

theorem getBlobIn_copyFold_hit (g : StoreBlob → Str) (dstB : Str) :
    ∀ (bs : List StoreBlob) (st : Store) (bl0 : StoreBlob),
      bl0 ∈ bs → bs.Pairwise (fun x y => g x ≠ g y) →
      getBlobIn (bs.foldl (fun acc bl => putBlob acc dstB (g bl) bl.content bl.updated) st)
        dstB (g bl0) = some ⟨dstB, g bl0, bl0.content, bl0.updated⟩ := by
  intro bs
  induction bs with
  | nil => intro st bl0 h; cases h
  | cons x rest ih =>
      intro st bl0 hmem hpw
      rw [List.pairwise_cons] at hpw
      rcases List.mem_cons.mp hmem with h1 | h1
      · subst h1
        rw [List.foldl_cons,
          getBlobIn_copyFold_miss g dstB rest _
            (fun bl hbl hc => hpw.1 bl hbl hc.2),
          getBlobIn_putBlob_same]
      · exact List.foldl_cons _ _ ▸ ih _ bl0 h1 hpw.2

theorem getBlobIn_delFold_keep (srcB : Str) {b2 k2 : Str} :
    ∀ (bs : List StoreBlob) (st : Store),
      (∀ bl ∈ bs, ¬(b2 = srcB ∧ k2 = bl.key)) →
      getBlobIn (bs.foldl (fun acc bl => removeBlob acc srcB bl.key) st) b2 k2 =
        getBlobIn st b2 k2 := by
  intro bs
  induction bs with
  | nil => intro st _; rfl
  | cons x rest ih =>
      intro st h
      rw [List.foldl_cons, ih _ fun bl hbl => h bl (List.mem_cons_of_mem _ hbl),
        getBlobIn_removeBlob_other (h x (List.mem_cons_self _ _))]

theorem mem_copyFold (g : StoreBlob → Str) (dstB : Str) :
    ∀ (bs : List StoreBlob) (st : Store) (bl : StoreBlob),
      bs.Pairwise (fun x y => g x ≠ g y) →
      (bl ∈ (bs.foldl (fun acc x => putBlob acc dstB (g x) x.content x.updated) st).blobs ↔
        (∃ x ∈ bs, bl = ⟨dstB, g x, x.content, x.updated⟩) ∨
        (bl ∈ st.blobs ∧ ∀ x ∈ bs, ¬(bl.bucket = dstB ∧ bl.key = g x))) := by
  intro bs
  induction bs with
  | nil => intro st bl _; simp
  | cons x rest ih =>
      intro st bl hpw
      rw [List.pairwise_cons] at hpw
      rw [List.foldl_cons, ih _ bl hpw.2]
      constructor
      · rintro (⟨y, hy, hbl⟩ | ⟨hmem, hrest⟩)
        · exact Or.inl ⟨y, List.mem_cons_of_mem _ hy, hbl⟩
        · rcases mem_putBlob.mp hmem with h1 | ⟨h1, h2⟩
          · exact Or.inl ⟨x, List.mem_cons_self _ _, h1⟩
          · refine Or.inr ⟨h1, ?_⟩
            intro y hy
            rcases List.mem_cons.mp hy with hy | hy
            · exact hy ▸ h2
            · exact hrest y hy
      · rintro (⟨y, hy, hbl⟩ | ⟨hmem, hall⟩)
        · rcases List.mem_cons.mp hy with hy | hy
          · subst hy
            refine Or.inr ⟨mem_putBlob.mpr (Or.inl hbl), ?_⟩
            intro z hz hc
            rw [hbl] at hc
            exact hpw.1 z hz hc.2
          · exact Or.inl ⟨y, hy, hbl⟩
        · exact Or.inr ⟨mem_putBlob.mpr
            (Or.inr ⟨hmem, hall x (List.mem_cons_self _ _)⟩),
            fun y hy => hall y (List.mem_cons_of_mem _ hy)⟩

/-- Separation: when source and destination prefixes do not nest, a copy
target `tk ++ '/' :: s` is never back under the source prefix and never the
exact source key. -/
theorem sep_copy_target {k tk s : Str}
    (h1 : ¬ List.IsPrefix (k ++ ['/']) (tk ++ ['/']))
    (h2 : ¬ List.IsPrefix (tk ++ ['/']) (k ++ ['/'])) :
    ¬ List.IsPrefix (k ++ ['/']) (tk ++ '/' :: s) ∧ tk ++ '/' :: s ≠ k := by
  constructor
  · intro hpre
    have hpre2 : List.IsPrefix (tk ++ ['/']) (tk ++ '/' :: s) := by
      have : tk ++ '/' :: s = (tk ++ ['/']) ++ s := by simp
      rw [this]
      exact List.prefix_append _ _
    rcases List.prefix_or_prefix_of_prefix hpre hpre2 with h | h
    · exact h1 h
    · exact h2 h
  · intro he
    apply h2
    rw [← he]
    have : (tk ++ '/' :: s) ++ ['/'] = (tk ++ ['/']) ++ (s ++ ['/']) := by simp
    rw [this]
    exact List.prefix_append _ _

theorem getBucket_ok {st : Store} {p : PathK} (hne : p.bucket ≠ [])
    (hmem : p.bucket ∈ st.buckets) : getBucket st p = .ok p.bucket := by
  unfold getBucket
  rw [if_neg hne, if_pos (by simpa [List.elem_iff] using hmem)]

theorem keyPfx_eq {p : PathK} {k : Str} (h : p.key = some k) :
    keyPfx p = k ++ ['/'] := by
  unfold keyPfx
  rw [h]

/-- Part of C3 that holds for every successful `rename`: the emitted trace
is all the copies followed by all the deletes. -/
theorem rename_trace_shape (st : Store) (p t : PathK) (st2 : Store)
    (tr : List RenOp) (h : accessorRename st p t = .ok (st2, tr)) :
    ∃ cs ds, tr = cs ++ ds ∧ (∀ o ∈ cs, o.isCopy = true) ∧
      (∀ o ∈ ds, o.isCopy = false) := by
  unfold accessorRename at h
  cases hb1 : getBucket st p with
  | error e => rw [hb1] at h; cases h
  | ok srcB =>
      rw [hb1] at h
      cases hb2 : getBucket st t with
      | error e => rw [hb2] at h; cases h
      | ok dstB =>
          rw [hb2] at h
          dsimp only at h
          by_cases hdir : accessorIsDir st p = true
          · rw [if_neg (by simp [hdir])] at h
            injection h with h
            injection h with h1 h2
            refine ⟨_, _, h2.symm, ?_, ?_⟩
            · intro o ho
              rw [List.mem_map] at ho
              obtain ⟨bl, -, hbl⟩ := ho
              rw [← hbl]
              rfl
            · intro o ho
              rw [List.mem_map] at ho
              obtain ⟨bl, -, hbl⟩ := ho
              rw [← hbl]
              rfl
          · rw [if_pos (by simp [hdir])] at h
            cases hgb : getBlobIn st srcB (strOptKey p.key) with
            | none => rw [hgb] at h; cases h
            | some bl =>
                rw [hgb] at h
                injection h with h
                injection h with h1 h2
                exact ⟨[.copy srcB bl.key dstB (strOptKey t.key)],
                  [.delete srcB bl.key], h2.symm,
                  by intro o ho; simp at ho; rw [ho]; rfl,
                  by intro o ho; simp at ho; rw [ho]; rfl⟩

/-- For a keyed path over an existing bucket, `exists` reduces to
"exact blob or implied directory". -/
theorem accessorExists_keyed (st : Store) (p : PathK) (k : Str)
    (hk : p.key = some k) (hne : p.bucket ≠ []) (hmem : p.bucket ∈ st.buckets) :
    accessorExists st p =
      ((getBlobIn st p.bucket k).isSome ||
        !(listBlobs st p.bucket (some (k ++ ['/']))).isEmpty) := by
  unfold accessorExists lookupBucket
  rw [if_neg hne, if_pos ⟨hne, hmem⟩]
  dsimp only
  rw [if_neg (by simpa [List.elem_iff] using hmem), hk]
  dsimp only
  cases hgb : getBlobIn st p.bucket k with
  | some bl => rfl
  | none =>
      unfold clientExistsFS
      rw [hk]
      dsimp only
      rw [hgb]

theorem rename_single_post (st : Store) (hv : st.Valid) (p t : PathK) (k tk : Str)
    (hpk : p.key = some k) (htk : t.key = some tk)
    (hpbne : p.bucket ≠ []) (htb : t.bucket ∈ st.buckets) (htbne : t.bucket ≠ [])
    (hsep : t.bucket = p.bucket →
      ¬ List.IsPrefix (k ++ ['/']) (tk ++ ['/']) ∧
      ¬ List.IsPrefix (tk ++ ['/']) (k ++ ['/']))
    (bl0 : StoreBlob) (hfile : getBlobIn st p.bucket k = some bl0)
    (hnosub : ∀ bl ∈ st.blobs, bl.bucket = p.bucket →
      ¬ List.IsPrefix (k ++ ['/']) bl.key) :
    ∃ st2 tr, accessorRename st p t = .ok (st2, tr) ∧
      accessorExists st2 p = false ∧ accessorExists st2 t = true ∧
      getBlobContent st2 t.bucket tk = some bl0.content := by
  obtain ⟨hmem0, hbkt0, hkey0⟩ := getBlobIn_some_mem hfile
  have hpmem : p.bucket ∈ st.buckets := hbkt0 ▸ hv bl0 hmem0
  have hne1 : ¬(t.bucket = p.bucket ∧ tk = k) := by
    rintro ⟨hb, hk2⟩
    exact (hsep hb).1 (hk2 ▸ List.prefix_refl _)
  have hgacc : accessorGetBlob st p = some bl0 := by
    unfold accessorGetBlob lookupBucket
    rw [if_neg hpbne, if_pos ⟨hpbne, hpmem⟩, hpk]
    exact hfile
  have hdirf : accessorIsDir st p = false := by
    unfold accessorIsDir
    rw [hgacc]
  have hren : accessorRename st p t = .ok
      (removeBlob (putBlob st t.bucket tk bl0.content bl0.updated) p.bucket k,
       [.copy p.bucket k t.bucket tk, .delete p.bucket k]) := by
    unfold accessorRename
    rw [getBucket_ok hpbne hpmem, getBucket_ok htbne htb]
    dsimp only
    rw [if_pos (by simp [hdirf]), hpk]
    dsimp only [strOptKey]
    rw [hfile, htk]
    dsimp only [strOptKey]
    rw [hkey0]
  refine ⟨_, _, hren, ?_, ?_, ?_⟩
  · have hex1 : getBlobIn
        (removeBlob (putBlob st t.bucket tk bl0.content bl0.updated) p.bucket k)
        p.bucket k = none := getBlobIn_removeBlob_same _ _ _
    have hempty : (listBlobs
        (removeBlob (putBlob st t.bucket tk bl0.content bl0.updated) p.bucket k)
        p.bucket (some (k ++ ['/']))).isEmpty = true := by
      rw [listBlobs_isEmpty_iff]
      intro bl hbl hc
      rw [mem_removeBlob] at hbl
      obtain ⟨hput, -⟩ := hbl
      rcases mem_putBlob.mp hput with h1 | ⟨h1, -⟩
      · rw [h1] at hc
        have hs := (hsep hc.1).1
        have hc2 := hc.2
        rw [List.isPrefixOf_iff_prefix] at hc2
        exact hs (hc2.trans (List.prefix_append tk ['/']))
      · have hc2 := hc.2
        rw [List.isPrefixOf_iff_prefix] at hc2
        exact hnosub bl h1 hc.1 hc2
    rw [accessorExists_keyed
      (removeBlob (putBlob st t.bucket tk bl0.content bl0.updated) p.bucket k)
      p k hpk hpbne hpmem, hex1, hempty]
    rfl
  · have hgd : getBlobIn
        (removeBlob (putBlob st t.bucket tk bl0.content bl0.updated) p.bucket k)
        t.bucket tk = some ⟨t.bucket, tk, bl0.content, bl0.updated⟩ := by
      rw [getBlobIn_removeBlob_other hne1, getBlobIn_putBlob_same]
    rw [accessorExists_keyed
      (removeBlob (putBlob st t.bucket tk bl0.content bl0.updated) p.bucket k)
      t tk htk htbne htb, hgd]
    rfl
  · have hgd : getBlobIn
        (removeBlob (putBlob st t.bucket tk bl0.content bl0.updated) p.bucket k)
        t.bucket tk = some ⟨t.bucket, tk, bl0.content, bl0.updated⟩ := by
      rw [getBlobIn_removeBlob_other hne1, getBlobIn_putBlob_same]
    unfold getBlobContent
    rw [hgd]
    rfl

/-- When every blob of the bucket under the prefix lies exactly one level
below it, the delimiter listing coincides with the recursive one. -/
theorem listBlobsDelim_eq_flat (st : Store) (b pre : Str)
    (hflat : ∀ bl ∈ st.blobs, bl.bucket = b → List.IsPrefix pre bl.key →
      ((bl.key.drop pre.length).contains '/') = false) :
    listBlobsDelim st b pre = listBlobs st b (some pre) := by
  unfold listBlobsDelim listBlobs
  apply List.filter_congr
  intro bl hbl
  cases hA : (bl.bucket == b) with
  | false => simp [hA]
  | true =>
      cases hB : (pre.isPrefixOf bl.key) with
      | false => simp [hA, hB]
      | true =>
          have hC := hflat bl hbl (eq_of_beq hA)
            (List.isPrefixOf_iff_prefix.mp hB)
          have hC2 : '/' ∉ bl.key.drop pre.length := by
            intro hm
            rw [show ((bl.key.drop pre.length).contains '/') =
              ((bl.key.drop pre.length).elem '/') from rfl,
              List.elem_iff.mpr hm] at hC
            exact Bool.noConfusion hC
          simp [hA, hB, hC2]

theorem rename_folder_post (st : Store) (hv : st.Valid) (hu : st.UniqueKeys)
    (p t : PathK) (k tk : Str)
    (hpk : p.key = some k) (htk : t.key = some tk) (hkne : k ≠ [])
    (hpbne : p.bucket ≠ []) (htb : t.bucket ∈ st.buckets) (htbne : t.bucket ≠ [])
    (hsep : t.bucket = p.bucket →
      ¬ List.IsPrefix (k ++ ['/']) (tk ++ ['/']) ∧
      ¬ List.IsPrefix (tk ++ ['/']) (k ++ ['/']))
    (hnof : getBlobIn st p.bucket k = none)
    (hdir : ∃ bl ∈ st.blobs, bl.bucket = p.bucket ∧
      List.IsPrefix (k ++ ['/']) bl.key)
    (hflat : ∀ bl ∈ st.blobs, bl.bucket = p.bucket →
      List.IsPrefix (k ++ ['/']) bl.key →
      ((bl.key.drop (k ++ ['/']).length).contains '/') = false)
    (hocc : ∀ bl ∈ st.blobs, bl.bucket = p.bucket →
      List.IsPrefix (k ++ ['/']) bl.key → ¬ occursIn k (bl.key.drop k.length)) :
    ∃ st2 tr, accessorRename st p t = .ok (st2, tr) ∧
      accessorExists st2 p = false ∧ accessorExists st2 t = true ∧
      (∀ bl ∈ st.blobs, bl.bucket = p.bucket → List.IsPrefix (k ++ ['/']) bl.key →
        getBlobContent st2 t.bucket (tk ++ bl.key.drop k.length) = some bl.content) := by
  obtain ⟨bl1, hbl1mem, hbl1b, hbl1p⟩ := hdir
  have hpmem : p.bucket ∈ st.buckets := hbl1b ▸ hv bl1 hbl1mem
  have hLiff : ∀ bl, bl ∈ listBlobs st p.bucket (some (k ++ ['/'])) ↔
      bl ∈ st.blobs ∧ bl.bucket = p.bucket ∧ List.IsPrefix (k ++ ['/']) bl.key := by
    intro bl
    rw [mem_listBlobs_some, List.isPrefixOf_iff_prefix]
  have hdecomp : ∀ bl ∈ listBlobs st p.bucket (some (k ++ ['/'])),
      ∃ s, bl.key = k ++ '/' :: s ∧ pyReplace k tk bl.key = tk ++ '/' :: s ∧
        bl.key.drop k.length = '/' :: s := by
    intro bl hbl
    obtain ⟨hmem, hb, hpre⟩ := (hLiff bl).mp hbl
    obtain ⟨r, hr⟩ := hpre
    have hkey : bl.key = k ++ '/' :: r := by
      rw [← hr]
      simp
    have hdrop : bl.key.drop k.length = '/' :: r := by
      rw [hkey]
      exact List.drop_left k _
    refine ⟨r, hkey, ?_, hdrop⟩
    have hocc2 := hocc bl hmem hb ⟨r, hr⟩
    rw [hdrop] at hocc2
    rw [hkey]
    exact pyReplace_leading hkne hocc2
  have hLpw : (listBlobs st p.bucket (some (k ++ ['/']))).Pairwise
      (fun x y => pyReplace k tk x.key ≠ pyReplace k tk y.key) := by
    have hpw0 : (listBlobs st p.bucket (some (k ++ ['/']))).Pairwise
        (fun a b => a.bucket ≠ b.bucket ∨ a.key ≠ b.key) := hu.filter _
    refine hpw0.imp_of_mem ?_
    intro a b ha hb hab hg
    obtain ⟨sa, hka, hga, -⟩ := hdecomp a ha
    obtain ⟨sb, hkb, hgb, -⟩ := hdecomp b hb
    rw [hga, hgb] at hg
    have hsab : sa = sb := by
      have h2 := List.append_cancel_left hg
      injection h2
    rcases hab with h | h
    · exact h (by rw [((hLiff a).mp ha).2.1, ((hLiff b).mp hb).2.1])
    · exact h (by rw [hka, hkb, hsab])
  have hgacc : accessorGetBlob st p = none := by
    unfold accessorGetBlob lookupBucket
    rw [if_neg hpbne, if_pos ⟨hpbne, hpmem⟩, hpk]
    exact hnof
  have hbl1L : bl1 ∈ listBlobs st p.bucket (some (k ++ ['/'])) :=
    (hLiff bl1).mpr ⟨hbl1mem, hbl1b, hbl1p⟩
  have hdirt : accessorIsDir st p = true := by
    unfold accessorIsDir
    rw [hgacc]
    unfold clientIsDir
    rw [keyPfx_eq hpk]
    cases hL : listBlobs st p.bucket (some (k ++ ['/'])) with
    | nil => rw [hL] at hbl1L; cases hbl1L
    | cons a as => rfl
  have hren : accessorRename st p t = .ok
      ((listBlobs st p.bucket (some (k ++ ['/']))).foldl
          (fun acc bl => removeBlob acc p.bucket bl.key)
          ((listBlobs st p.bucket (some (k ++ ['/']))).foldl
            (fun acc bl => putBlob acc t.bucket (pyReplace k tk bl.key)
              bl.content bl.updated) st),
        ((listBlobs st p.bucket (some (k ++ ['/']))).map fun bl =>
          RenOp.copy p.bucket bl.key t.bucket (pyReplace k tk bl.key)) ++
        ((listBlobs st p.bucket (some (k ++ ['/']))).map fun bl =>
          RenOp.delete p.bucket bl.key)) := by
    unfold accessorRename
    rw [getBucket_ok hpbne hpmem, getBucket_ok htbne htb]
    dsimp only
    rw [if_neg (by simp [hdirt]), keyPfx_eq hpk,
      listBlobsDelim_eq_flat st p.bucket (k ++ ['/']) hflat, hpk, htk]
    dsimp only [strOptKey]
  refine ⟨_, _, hren, ?_, ?_, ?_⟩
  · have hbuck : ((listBlobs st p.bucket (some (k ++ ['/']))).foldl
        (fun acc bl => removeBlob acc p.bucket bl.key)
        ((listBlobs st p.bucket (some (k ++ ['/']))).foldl
          (fun acc bl => putBlob acc t.bucket (pyReplace k tk bl.key)
            bl.content bl.updated) st)).buckets = st.buckets := by
      rw [foldl_removeBlob_buckets]
      exact copyFold_buckets (fun x => pyReplace k tk x.key) t.bucket _ st
    have hexact2 : getBlobIn
        ((listBlobs st p.bucket (some (k ++ ['/']))).foldl
          (fun acc bl => removeBlob acc p.bucket bl.key)
          ((listBlobs st p.bucket (some (k ++ ['/']))).foldl
            (fun acc bl => putBlob acc t.bucket (pyReplace k tk bl.key)
              bl.content bl.updated) st)) p.bucket k = none := by
      rw [getBlobIn_none_iff]
      intro bl3 hbl3 hc
      rw [mem_foldl_removeBlob] at hbl3
      obtain ⟨hcf, hdelcond⟩ := hbl3
      rw [mem_copyFold (fun x => pyReplace k tk x.key) t.bucket _ _ _ hLpw] at hcf
      rcases hcf with ⟨x, hxL, hbl3eq⟩ | ⟨hst, -⟩
      · obtain ⟨s, hkx, hgx, -⟩ := hdecomp x hxL
        rw [hbl3eq] at hc
        simp only at hc
        rw [hgx] at hc
        exact (sep_copy_target (hsep hc.1).1 (hsep hc.1).2).2 hc.2
      · exact getBlobIn_none_iff.mp hnof bl3 hst hc
    have hempty2 : (listBlobs
        ((listBlobs st p.bucket (some (k ++ ['/']))).foldl
          (fun acc bl => removeBlob acc p.bucket bl.key)
          ((listBlobs st p.bucket (some (k ++ ['/']))).foldl
            (fun acc bl => putBlob acc t.bucket (pyReplace k tk bl.key)
              bl.content bl.updated) st)) p.bucket (some (k ++ ['/']))).isEmpty
        = true := by
      rw [listBlobs_isEmpty_iff]
      intro bl3 hbl3 hc
      have hc2 := hc.2
      rw [List.isPrefixOf_iff_prefix] at hc2
      rw [mem_foldl_removeBlob] at hbl3
      obtain ⟨hcf, hdelcond⟩ := hbl3
      rw [mem_copyFold (fun x => pyReplace k tk x.key) t.bucket _ _ _ hLpw] at hcf
      rcases hcf with ⟨x, hxL, hbl3eq⟩ | ⟨hst, -⟩
      · obtain ⟨s, hkx, hgx, -⟩ := hdecomp x hxL
        rw [hbl3eq] at hc hc2
        simp only at hc hc2
        rw [hgx] at hc2
        exact (sep_copy_target (hsep hc.1).1 (hsep hc.1).2).1 hc2
      · exact hdelcond bl3 ((hLiff bl3).mpr ⟨hst, hc.1, hc2⟩) ⟨hc.1, rfl⟩
    rw [accessorExists_keyed _ p k hpk hpbne (by rw [hbuck]; exact hpmem),
      hexact2, hempty2]
    rfl
  · obtain ⟨s1, hk1, hg1, hd1⟩ := hdecomp bl1 hbl1L
    have hcpmem : (⟨t.bucket, tk ++ '/' :: s1, bl1.content, bl1.updated⟩ : StoreBlob) ∈
        ((listBlobs st p.bucket (some (k ++ ['/']))).foldl
          (fun acc bl => removeBlob acc p.bucket bl.key)
          ((listBlobs st p.bucket (some (k ++ ['/']))).foldl
            (fun acc bl => putBlob acc t.bucket (pyReplace k tk bl.key)
              bl.content bl.updated) st)).blobs := by
      rw [mem_foldl_removeBlob]
      constructor
      · rw [mem_copyFold (fun x => pyReplace k tk x.key) t.bucket _ _ _ hLpw]
        exact Or.inl ⟨bl1, hbl1L, by rw [hg1]⟩
      · intro x hxL hc
        have hprex := ((hLiff x).mp hxL).2.2
        rw [← hc.2] at hprex
        exact (sep_copy_target (hsep hc.1).1 (hsep hc.1).2).1 hprex
    have hbuck : ((listBlobs st p.bucket (some (k ++ ['/']))).foldl
        (fun acc bl => removeBlob acc p.bucket bl.key)
        ((listBlobs st p.bucket (some (k ++ ['/']))).foldl
          (fun acc bl => putBlob acc t.bucket (pyReplace k tk bl.key)
            bl.content bl.updated) st)).buckets = st.buckets := by
      rw [foldl_removeBlob_buckets]
      exact copyFold_buckets (fun x => pyReplace k tk x.key) t.bucket _ st
    rw [accessorExists_keyed _ t tk htk htbne (by rw [hbuck]; exact htb)]
    have hnonnil : listBlobs
        ((listBlobs st p.bucket (some (k ++ ['/']))).foldl
          (fun acc bl => removeBlob acc p.bucket bl.key)
          ((listBlobs st p.bucket (some (k ++ ['/']))).foldl
            (fun acc bl => putBlob acc t.bucket (pyReplace k tk bl.key)
              bl.content bl.updated) st)) t.bucket (some (tk ++ ['/'])) ≠ [] := by
      intro hLe
      have hin : (⟨t.bucket, tk ++ '/' :: s1, bl1.content, bl1.updated⟩ : StoreBlob) ∈
          listBlobs ((listBlobs st p.bucket (some (k ++ ['/']))).foldl
            (fun acc bl => removeBlob acc p.bucket bl.key)
            ((listBlobs st p.bucket (some (k ++ ['/']))).foldl
              (fun acc bl => putBlob acc t.bucket (pyReplace k tk bl.key)
                bl.content bl.updated) st)) t.bucket (some (tk ++ ['/'])) := by
        refine mem_listBlobs_some.mpr ⟨hcpmem, rfl, ?_⟩
        rw [List.isPrefixOf_iff_prefix]
        exact ⟨s1, by simp⟩
      rw [hLe] at hin
      cases hin
    cases hL2 : listBlobs
        ((listBlobs st p.bucket (some (k ++ ['/']))).foldl
          (fun acc bl => removeBlob acc p.bucket bl.key)
          ((listBlobs st p.bucket (some (k ++ ['/']))).foldl
            (fun acc bl => putBlob acc t.bucket (pyReplace k tk bl.key)
              bl.content bl.updated) st)) t.bucket (some (tk ++ ['/'])) with
    | nil => exact absurd hL2 hnonnil
    | cons a as => simp
  · intro bl hmem hb hpre
    have hblL : bl ∈ listBlobs st p.bucket (some (k ++ ['/'])) :=
      (hLiff bl).mpr ⟨hmem, hb, hpre⟩
    obtain ⟨s, hk2, hg2, hd2⟩ := hdecomp bl hblL
    rw [hd2]
    have hkeep : getBlobIn
        ((listBlobs st p.bucket (some (k ++ ['/']))).foldl
          (fun acc bl => removeBlob acc p.bucket bl.key)
          ((listBlobs st p.bucket (some (k ++ ['/']))).foldl
            (fun acc bl => putBlob acc t.bucket (pyReplace k tk bl.key)
              bl.content bl.updated) st)) t.bucket (tk ++ '/' :: s) =
        getBlobIn ((listBlobs st p.bucket (some (k ++ ['/']))).foldl
            (fun acc bl => putBlob acc t.bucket (pyReplace k tk bl.key)
              bl.content bl.updated) st) t.bucket (tk ++ '/' :: s) := by
      apply getBlobIn_delFold_keep
      intro x hxL hc
      have hprex := ((hLiff x).mp hxL).2.2
      rw [← hc.2] at hprex
      exact (sep_copy_target (hsep hc.1).1 (hsep hc.1).2).1 hprex
    unfold getBlobContent
    rw [hkeep, ← hg2,
      getBlobIn_copyFold_hit (fun x => pyReplace k tk x.key) t.bucket _ _ bl hblL hLpw]
    rfl

/-- C3 (amended): every successful `rename` issues all copies before any
delete; and under non-nesting source/destination prefixes, an existing
target bucket, and (for the folder case) source keys in which the source
key occurs only as the leading prefix, `rename` succeeds with
`exists(src) = false`, `exists(dst) = true`, and the destination holding
the source's prior content, in both the single-blob and the prefix case.
The single-blob case additionally assumes no other blob lies strictly
under the source key (otherwise those blobs survive, see the
counterexample), and the folder case additionally assumes every blob under
the prefix lies exactly one level below it: the folder branch lists with
`delimiter=sep`, so deeper blobs are not enumerated and are left behind
(see the counterexample). -/
theorem c3_rename_amended (st : Store) (p t : PathK) (k tk : Str)
    (hv : st.Valid) (hu : st.UniqueKeys)
    (hpk : p.key = some k) (htk : t.key = some tk) (hkne : k ≠ [])
    (hpbne : p.bucket ≠ []) (htb : t.bucket ∈ st.buckets) (htbne : t.bucket ≠ [])
    (hsep : t.bucket = p.bucket →
      ¬ List.IsPrefix (k ++ ['/']) (tk ++ ['/']) ∧
      ¬ List.IsPrefix (tk ++ ['/']) (k ++ ['/'])) :
    (∀ st2 tr, accessorRename st p t = .ok (st2, tr) →
      ∃ cs ds, tr = cs ++ ds ∧ (∀ o ∈ cs, o.isCopy = true) ∧
        (∀ o ∈ ds, o.isCopy = false)) ∧
    (∀ bl0, getBlobIn st p.bucket k = some bl0 →
      (∀ bl ∈ st.blobs, bl.bucket = p.bucket →
        ¬ List.IsPrefix (k ++ ['/']) bl.key) →
      ∃ st2 tr, accessorRename st p t = .ok (st2, tr) ∧
        accessorExists st2 p = false ∧ accessorExists st2 t = true ∧
        getBlobContent st2 t.bucket tk = some bl0.content) ∧
    (getBlobIn st p.bucket k = none →
      (∃ bl ∈ st.blobs, bl.bucket = p.bucket ∧
        List.IsPrefix (k ++ ['/']) bl.key) →
      (∀ bl ∈ st.blobs, bl.bucket = p.bucket → List.IsPrefix (k ++ ['/']) bl.key →
        ((bl.key.drop (k ++ ['/']).length).contains '/') = false) →
      (∀ bl ∈ st.blobs, bl.bucket = p.bucket → List.IsPrefix (k ++ ['/']) bl.key →
        ¬ occursIn k (bl.key.drop k.length)) →
      ∃ st2 tr, accessorRename st p t = .ok (st2, tr) ∧
        accessorExists st2 p = false ∧ accessorExists st2 t = true ∧
        (∀ bl ∈ st.blobs, bl.bucket = p.bucket →
          List.IsPrefix (k ++ ['/']) bl.key →
          getBlobContent st2 t.bucket (tk ++ bl.key.drop k.length) =
            some bl.content)) :=
  ⟨fun st2 tr h => rename_trace_shape st p t st2 tr h,
   fun bl0 hfile hnosub =>
     rename_single_post st hv p t k tk hpk htk hpbne htb htbne hsep bl0 hfile hnosub,
   fun hnof hdir hflat hocc =>
     rename_folder_post st hv hu p t k tk hpk htk hkne hpbne htb htbne hsep
       hnof hdir hflat hocc⟩

/-- C3 counterexample to the claim as stated, twice over: (1) when a blob
exists at the exact source key *and* other blobs lie under the source
prefix, `rename` takes the single-blob branch and moves only the exact
blob; (2) on a folder whose only blob lies two levels below the prefix,
the `delimiter=sep` listing returns nothing, so `rename` succeeds with an
empty trace and moves nothing.  In both cases `exists(src)` is still true
afterwards, contradicting the claimed "enumerates every blob under the
shared prefix … `exists(src) = false`" postcondition. -/
theorem c3_counterexample :
    (accessorRename
      ⟨["b".data], [⟨"b".data, "a".data, "c1", 1⟩, ⟨"b".data, "a/x".data, "c2", 2⟩]⟩
      ⟨"b".data, some "a".data⟩ ⟨"b".data, some "c".data⟩ =
      .ok (⟨["b".data], [⟨"b".data, "c".data, "c1", 1⟩, ⟨"b".data, "a/x".data, "c2", 2⟩]⟩,
        [.copy "b".data "a".data "b".data "c".data, .delete "b".data "a".data]) ∧
    accessorExists
      ⟨["b".data], [⟨"b".data, "c".data, "c1", 1⟩, ⟨"b".data, "a/x".data, "c2", 2⟩]⟩
      ⟨"b".data, some "a".data⟩ = true) ∧
    (accessorRename
      ⟨["b".data], [⟨"b".data, "a/x/y".data, "c3", 3⟩]⟩
      ⟨"b".data, some "a".data⟩ ⟨"b".data, some "c".data⟩ =
      .ok (⟨["b".data], [⟨"b".data, "a/x/y".data, "c3", 3⟩]⟩, []) ∧
    accessorExists
      ⟨["b".data], [⟨"b".data, "a/x/y".data, "c3", 3⟩]⟩
      ⟨"b".data, some "a".data⟩ = true) := by
  refine ⟨⟨?_, ?_⟩, ?_, ?_⟩
  · rfl
  · decide
  · rfl
  · decide

theorem not_occursIn_of_head_not_mem {c : Char} {pt s : Str} (h : c ∉ s) :
    ¬ occursIn (c :: pt) s := by
  rintro ⟨l, r, heq⟩
  apply h
  rw [heq]
  simp

/-- Witness for `c3_rename_amended`: a single-blob rename of `f` to `g`,
and a folder rename of `a` (holding `a/x`) to `d`, both in bucket `b`. -/
theorem c3_witness :
    (∃ st2 tr, accessorRename ⟨["b".data], [⟨"b".data, "f".data, "cf", 7⟩]⟩
        ⟨"b".data, some "f".data⟩ ⟨"b".data, some "g".data⟩ = .ok (st2, tr) ∧
      accessorExists st2 ⟨"b".data, some "f".data⟩ = false ∧
      accessorExists st2 ⟨"b".data, some "g".data⟩ = true ∧
      getBlobContent st2 "b".data "g".data = some "cf") ∧
    (∃ st2 tr, accessorRename ⟨["b".data], [⟨"b".data, "a/x".data, "ca", 1⟩]⟩
        ⟨"b".data, some "a".data⟩ ⟨"b".data, some "d".data⟩ = .ok (st2, tr) ∧
      accessorExists st2 ⟨"b".data, some "a".data⟩ = false ∧
      accessorExists st2 ⟨"b".data, some "d".data⟩ = true ∧
      (∀ bl ∈ ([⟨"b".data, "a/x".data, "ca", 1⟩] : List StoreBlob),
        bl.bucket = "b".data → List.IsPrefix ("a".data ++ ['/']) bl.key →
        getBlobContent st2 "b".data ("d".data ++ bl.key.drop "a".data.length) =
          some bl.content)) := by
  constructor
  · exact (c3_rename_amended ⟨["b".data], [⟨"b".data, "f".data, "cf", 7⟩]⟩
      ⟨"b".data, some "f".data⟩ ⟨"b".data, some "g".data⟩ "f".data "g".data
      (by decide) (by decide) rfl rfl (by decide) (by decide) (by decide) (by decide)
      (fun _ => by
        constructor <;> · intro hpre
                          rcases hpre with ⟨r, hr⟩
                          simp at hr)).2.1
      ⟨"b".data, "f".data, "cf", 7⟩ (by rfl)
      (by
        intro bl hbl hb hpre
        simp only [List.mem_singleton] at hbl
        subst hbl
        have := hpre.length_le
        simp at this)
  · exact (c3_rename_amended ⟨["b".data], [⟨"b".data, "a/x".data, "ca", 1⟩]⟩
      ⟨"b".data, some "a".data⟩ ⟨"b".data, some "d".data⟩ "a".data "d".data
      (by decide) (by decide) rfl rfl (by decide) (by decide) (by decide) (by decide)
      (fun _ => by
        constructor <;> · intro hpre
                          rcases hpre with ⟨r, hr⟩
                          simp at hr)).2.2
      (by rfl)
      ⟨⟨"b".data, "a/x".data, "ca", 1⟩, by decide⟩
      (by
        intro bl hbl hb hpre
        simp only [List.mem_singleton] at hbl
        subst hbl
        decide)
      (by
        intro bl hbl hb hpre
        simp only [List.mem_singleton] at hbl
        subst hbl
        show ¬ occursIn ['a'] (List.drop 1 ['a', '/', 'x'])
        exact not_occursIn_of_head_not_mem (by decide))

/-! ### C7: `Pathy.to_local` cache model

The local cache (`use_fs_cache` directory) is a flat map from file paths to
file contents. `Pathy.to_local` keeps, for a blob at bucket/key, a data file
at `<cache>/<bucket>/<key>` and a sidecar at `<cache>/<bucket>/<key>.time`
holding `str(stat.last_modified)`. We model the cache directory as implicit
and a path as `bucket ++ '/' :: key`. The model follows lines 533-585 of
`src/pathy/__init__.py` with `recurse=False` (the freshness logic on an
existing blob is identical for both recurse values). `stat()` on a missing
blob raises, modeled as `none`. -/

def fsGet (c : List (Str × String)) (q : Str) : Option String :=
  (c.find? (fun e => e.1 == q)).map (fun e => e.2)

def fsDel (c : List (Str × String)) (q : Str) : List (Str × String) :=
  c.filter (fun e => !(e.1 == q))

def fsSet (c : List (Str × String)) (q : Str) (v : String) :
    List (Str × String) :=
  (q, v) :: fsDel c q

def dataPath (p : PathK) (k : Str) : Str := p.bucket ++ '/' :: k

def timePath (p : PathK) (k : Str) : Str :=
  p.bucket ++ '/' :: (k ++ ".time".data)

def natStr (n : Nat) : String := toString n

def toLocalFetch (c : List (Str × String)) (st : Store) (p : PathK) (k : Str) :
    Option (Str × List (Str × String) × Bool) :=
  if (fsGet c (dataPath p k)).isSome then some (dataPath p k, c, false)
  else
    match getBlobIn st p.bucket k with
    | some bl =>
        some (dataPath p k,
          fsSet (fsSet c (dataPath p k) bl.content) (timePath p k)
            (natStr bl.updated),
          true)
    | none => some (dataPath p k, c, false)

def toLocal (c : List (Str × String)) (st : Store) (p : PathK) (k : Str) :
    Option (Str × List (Str × String) × Bool) :=
  if (fsGet c (dataPath p k)).isSome && (fsGet c (timePath p k)).isSome then
    match fsGet c (timePath p k), getBlobIn st p.bucket k with
    | some fsTime, some bl =>
        if fsTime == natStr bl.updated then some (dataPath p k, c, false)
        else toLocalFetch (fsDel (fsDel c (dataPath p k)) (timePath p k)) st p k
    | _, _ => none
  else toLocalFetch c st p k

theorem fsGet_fsDel_same (c : List (Str × String)) (q : Str) :
    fsGet (fsDel c q) q = none := by
  induction c with
  | nil => rfl
  | cons e t ih =>
      by_cases he : e.1 = q
      · have h1 : (!(e.1 == q)) = false := by simp [he]
        simp only [fsDel, List.filter_cons, h1]
        exact ih
      · have h1 : (!(e.1 == q)) = true := by simp [he]
        have h2 : (e.1 == q) = false := by simp [he]
        simp only [fsDel, List.filter_cons, h1]
        show fsGet (e :: fsDel t q) q = none
        simp only [fsGet, List.find?_cons, h2]
        exact ih

theorem fsGet_fsDel_other (c : List (Str × String)) {q q' : Str}
    (hne : q ≠ q') : fsGet (fsDel c q') q = fsGet c q := by
  induction c with
  | nil => rfl
  | cons e t ih =>
      by_cases he : e.1 = q'
      · have h1 : (!(e.1 == q')) = false := by simp [he]
        have h2 : (e.1 == q) = false := by
          simp only [beq_eq_false_iff_ne, ne_eq]
          intro h
          exact hne (h.symm.trans he)
        simp only [fsDel, List.filter_cons, h1]
        rw [show fsGet (e :: t) q = fsGet t q by
          simp only [fsGet, List.find?_cons, h2]]
        exact ih
      · have h1 : (!(e.1 == q')) = true := by simp [he]
        simp only [fsDel, List.filter_cons, h1]
        show fsGet (e :: fsDel t q') q = fsGet (e :: t) q
        by_cases hq : e.1 = q
        · have h2 : (e.1 == q) = true := by simp [hq]
          simp only [fsGet, List.find?_cons, h2]
        · have h2 : (e.1 == q) = false := by simp [hq]
          simp only [fsGet, List.find?_cons, h2]
          exact ih

theorem fsGet_fsSet_same (c : List (Str × String)) (q : Str) (v : String) :
    fsGet (fsSet c q v) q = some v := by
  simp [fsGet, fsSet, List.find?_cons]

theorem fsGet_fsSet_other (c : List (Str × String)) {q q' : Str} (v : String)
    (hne : q' ≠ q) : fsGet (fsSet c q v) q' = fsGet c q' := by
  have h2 : (((q, v) : Str × String).1 == q') = false := by
    simp only [beq_eq_false_iff_ne, ne_eq]
    exact fun h => hne h.symm
  rw [show fsGet (fsSet c q v) q' = fsGet (fsDel c q) q' by
    simp only [fsGet, fsSet, List.find?_cons, h2]]
  exact fsGet_fsDel_other c hne

theorem dataPath_ne_timePath (p : PathK) (k : Str) :
    dataPath p k ≠ timePath p k := by
  intro h
  have h5 : (".time".data).length = 5 := rfl
  have := congrArg List.length h
  simp only [dataPath, timePath, List.length_append, List.length_cons,
    h5] at this
  omega

theorem toLocalFetch_cached (c : List (Str × String)) (st : Store) (p : PathK)
    (k : Str) (h : (fsGet c (dataPath p k)).isSome = true) :
    toLocalFetch c st p k = some (dataPath p k, c, false) := by
  rw [toLocalFetch, if_pos h]

theorem toLocalFetch_fetch (c : List (Str × String)) (st : Store) (p : PathK)
    (k : Str) (bl : StoreBlob) (hd : fsGet c (dataPath p k) = none)
    (hb : getBlobIn st p.bucket k = some bl) :
    toLocalFetch c st p k = some (dataPath p k,
      fsSet (fsSet c (dataPath p k) bl.content) (timePath p k)
        (natStr bl.updated), true) := by
  rw [toLocalFetch, if_neg (by simp [hd]), hb]

theorem toLocal_miss (c : List (Str × String)) (st : Store) (p : PathK)
    (k : Str) (bl : StoreBlob) (hd : fsGet c (dataPath p k) = none)
    (hb : getBlobIn st p.bucket k = some bl) :
    toLocal c st p k = some (dataPath p k,
      fsSet (fsSet c (dataPath p k) bl.content) (timePath p k)
        (natStr bl.updated), true) := by
  rw [toLocal, if_neg (by simp [hd])]
  exact toLocalFetch_fetch c st p k bl hd hb

theorem toLocal_no_sidecar (c : List (Str × String)) (st : Store) (p : PathK)
    (k : Str) (d : String) (hd : fsGet c (dataPath p k) = some d)
    (ht : fsGet c (timePath p k) = none) :
    toLocal c st p k = some (dataPath p k, c, false) := by
  rw [toLocal, if_neg (by simp [ht])]
  exact toLocalFetch_cached c st p k (by simp [hd])

theorem toLocal_fresh (c : List (Str × String)) (st : Store) (p : PathK)
    (k : Str) (bl : StoreBlob) (d : String)
    (hd : fsGet c (dataPath p k) = some d)
    (ht : fsGet c (timePath p k) = some (natStr bl.updated))
    (hb : getBlobIn st p.bucket k = some bl) :
    toLocal c st p k = some (dataPath p k, c, false) := by
  rw [toLocal, if_pos (by simp [hd, ht]), ht, hb]
  dsimp only
  rw [if_pos (by simp)]

theorem toLocal_stale (c : List (Str × String)) (st : Store) (p : PathK)
    (k : Str) (bl : StoreBlob) (d ts : String)
    (hd : fsGet c (dataPath p k) = some d)
    (ht : fsGet c (timePath p k) = some ts) (hne : ts ≠ natStr bl.updated)
    (hb : getBlobIn st p.bucket k = some bl) :
    toLocal c st p k = some (dataPath p k,
      fsSet (fsSet (fsDel (fsDel c (dataPath p k)) (timePath p k))
          (dataPath p k) bl.content)
        (timePath p k) (natStr bl.updated), true) := by
  rw [toLocal, if_pos (by simp [hd, ht]), ht, hb]
  dsimp only
  rw [if_neg (by simp [hne])]
  exact toLocalFetch_fetch _ st p k bl
    (by
      rw [fsGet_fsDel_other _ (dataPath_ne_timePath p k)]
      exact fsGet_fsDel_same c (dataPath p k))
    hb

/-- C7 (amended): with the blob present, `to_local` returns without
fetching iff the cached data file exists and the sidecar is either missing
or string-equal to the blob's current last-modified value; a missing
sidecar therefore yields the (possibly stale) cached file rather than a
refetch. Whenever it does fetch, the cache afterwards holds the blob's
current content and a sidecar with the current last-modified string; a
present-but-mismatching sidecar, or a missing data file, always triggers a
fetch. -/
theorem c7_to_local_amended (c : List (Str × String)) (st : Store)
    (p : PathK) (k : Str) (bl : StoreBlob)
    (h : getBlobIn st p.bucket k = some bl) :
    ((∃ r, toLocal c st p k = some (r, c, false)) ↔
      ((fsGet c (dataPath p k)).isSome = true ∧
        (fsGet c (timePath p k) = none ∨
          fsGet c (timePath p k) = some (natStr bl.updated)))) ∧
    (∀ r c2, toLocal c st p k = some (r, c2, true) →
      r = dataPath p k ∧ fsGet c2 (dataPath p k) = some bl.content ∧
        fsGet c2 (timePath p k) = some (natStr bl.updated)) ∧
    (∀ ts, fsGet c (timePath p k) = some ts → ts ≠ natStr bl.updated →
      ∃ c2, toLocal c st p k = some (dataPath p k, c2, true)) ∧
    (fsGet c (dataPath p k) = none →
      ∃ c2, toLocal c st p k = some (dataPath p k, c2, true)) := by
  refine ⟨⟨?_, ?_⟩, ?_, ?_, ?_⟩
  · rintro ⟨r, hr⟩
    cases hd : fsGet c (dataPath p k) with
    | none =>
        rw [toLocal_miss c st p k bl hd h] at hr
        simp at hr
    | some d =>
        refine ⟨rfl, ?_⟩
        cases ht : fsGet c (timePath p k) with
        | none => exact Or.inl rfl
        | some ts =>
            by_cases hts : ts = natStr bl.updated
            · exact Or.inr (by rw [hts])
            · rw [toLocal_stale c st p k bl d ts hd ht hts h] at hr
              simp at hr
  · rintro ⟨hds, ht⟩
    cases hd : fsGet c (dataPath p k) with
    | none => rw [hd] at hds; simp at hds
    | some d =>
        rcases ht with ht | ht
        · exact ⟨dataPath p k, toLocal_no_sidecar c st p k d hd ht⟩
        · exact ⟨dataPath p k, toLocal_fresh c st p k bl d hd ht h⟩
  · intro r c2 h2
    cases hd : fsGet c (dataPath p k) with
    | none =>
        rw [toLocal_miss c st p k bl hd h] at h2
        simp only [Option.some.injEq, Prod.mk.injEq] at h2
        obtain ⟨h2r, h2c, -⟩ := h2
        refine ⟨h2r.symm, ?_, ?_⟩
        · rw [← h2c, fsGet_fsSet_other _ _ (dataPath_ne_timePath p k),
            fsGet_fsSet_same]
        · rw [← h2c, fsGet_fsSet_same]
    | some d =>
        cases ht : fsGet c (timePath p k) with
        | none =>
            rw [toLocal_no_sidecar c st p k d hd ht] at h2
            simp at h2
        | some ts =>
            by_cases hts : ts = natStr bl.updated
            · rw [hts] at ht
              rw [toLocal_fresh c st p k bl d hd ht h] at h2
              simp at h2
            · rw [toLocal_stale c st p k bl d ts hd ht hts h] at h2
              simp only [Option.some.injEq, Prod.mk.injEq] at h2
              obtain ⟨h2r, h2c, -⟩ := h2
              refine ⟨h2r.symm, ?_, ?_⟩
              · rw [← h2c, fsGet_fsSet_other _ _ (dataPath_ne_timePath p k),
                  fsGet_fsSet_same]
              · rw [← h2c, fsGet_fsSet_same]
  · intro ts ht hne
    cases hd : fsGet c (dataPath p k) with
    | none => exact ⟨_, toLocal_miss c st p k bl hd h⟩
    | some d => exact ⟨_, toLocal_stale c st p k bl d ts hd ht hne h⟩
  · intro hd
    exact ⟨_, toLocal_miss c st p k bl hd h⟩

/-- C7 counterexample to the claim as stated: the data file is cached but
the sidecar is missing and the remote blob has newer content, so by the
claimed freshness rule ("fresh iff both files exist and match") `to_local`
should refetch; instead it returns the stale cached file with no fetch and
the cache unchanged. -/
theorem c7_counterexample :
    fsGet [(dataPath ⟨"b".data, some "k".data⟩ "k".data, "old")]
        (timePath ⟨"b".data, some "k".data⟩ "k".data) = none ∧
    getBlobIn ⟨["b".data], [⟨"b".data, "k".data, "new", 5⟩]⟩
        "b".data "k".data = some ⟨"b".data, "k".data, "new", 5⟩ ∧
    toLocal [(dataPath ⟨"b".data, some "k".data⟩ "k".data, "old")]
        ⟨["b".data], [⟨"b".data, "k".data, "new", 5⟩]⟩
        ⟨"b".data, some "k".data⟩ "k".data =
      some (dataPath ⟨"b".data, some "k".data⟩ "k".data,
        [(dataPath ⟨"b".data, some "k".data⟩ "k".data, "old")], false) ∧
    ("old" : String) ≠ "new" := by
  refine ⟨rfl, rfl, rfl, by decide⟩

/-- Witness for `c7_to_local_amended`: with data file and matching sidecar
cached, `to_local` returns the cached path without fetching. -/
theorem c7_witness :
    ∃ r, toLocal
      [(dataPath ⟨"b".data, some "k".data⟩ "k".data, "new"),
       (timePath ⟨"b".data, some "k".data⟩ "k".data, "5")]
      ⟨["b".data], [⟨"b".data, "k".data, "new", 5⟩]⟩
      ⟨"b".data, some "k".data⟩ "k".data =
      some (r,
        [(dataPath ⟨"b".data, some "k".data⟩ "k".data, "new"),
         (timePath ⟨"b".data, some "k".data⟩ "k".data, "5")], false) :=
  ((c7_to_local_amended
      [(dataPath ⟨"b".data, some "k".data⟩ "k".data, "new"),
       (timePath ⟨"b".data, some "k".data⟩ "k".data, "5")]
      ⟨["b".data], [⟨"b".data, "k".data, "new", 5⟩]⟩
      ⟨"b".data, some "k".data⟩ "k".data
      ⟨"b".data, "k".data, "new", 5⟩ (by rfl)).1).mpr
    ⟨by rfl, Or.inr (by rfl)⟩

/-! ### C8: `clear_fs_cache` safety

`clear_fs_cache` (lines 1285-1294) reads the configured cache root, asserts
it is set, resolves it, asserts the resolved string is not "/", and only
then calls `shutil.rmtree` on it. We model `pathlib.Path.resolve` as an
arbitrary function (it consults symlinks and the working directory), the
failed asserts as errors, and `.ok r` as "rmtree was invoked on `r`". -/

def clearFsCache (resolve : Str → Str) (cache : Option Str) :
    Except String Str :=
  match cache with
  | none => .error "no cache to clear"
  | some p =>
      if resolve p == "/".data then .error "refusing to remove a root path"
      else .ok (resolve p)

/-- C8: `clear_fs_cache` fails before deleting anything when the cache root
is unset or resolves to "/", deletes the resolved cache root otherwise, and
no successful run ever deletes the filesystem root — for every possible
`resolve` behaviour. -/
theorem c8_clear_fs_cache_safety (resolve : Str → Str) (cache : Option Str) :
    (cache = none → clearFsCache resolve cache = .error "no cache to clear") ∧
    (∀ p, cache = some p → resolve p = "/".data →
      clearFsCache resolve cache = .error "refusing to remove a root path") ∧
    (∀ p, cache = some p → resolve p ≠ "/".data →
      clearFsCache resolve cache = .ok (resolve p)) ∧
    (∀ r, clearFsCache resolve cache = .ok r → r ≠ "/".data) := by
  refine ⟨fun h => by rw [h]; rfl, fun p hp hroot => ?_, fun p hp hroot => ?_,
    fun r hr hne => ?_⟩
  · rw [hp]
    show (if resolve p == "/".data then _ else _) = _
    rw [if_pos (by simp [hroot])]
  · rw [hp]
    show (if resolve p == "/".data then _ else _) = _
    rw [if_neg (by simp [hroot])]
  · cases cache with
    | none => exact Except.noConfusion hr
    | some p =>
        by_cases hres : resolve p = "/".data
        · rw [show clearFsCache resolve (some p) = .error
              "refusing to remove a root path" from by
            show (if resolve p == "/".data then _ else _) = _
            rw [if_pos (by simp [hres])]] at hr
          exact Except.noConfusion hr
        · rw [show clearFsCache resolve (some p) = .ok (resolve p) from by
            show (if resolve p == "/".data then _ else _) = _
            rw [if_neg (by simp [hres])]] at hr
          cases hr
          exact hres hne

/-- Witness for `c8_clear_fs_cache_safety`: with an identity resolver, a
cache at "/tmp/cache" is deleted, while an unset cache and a cache
resolving to "/" both fail before any deletion. -/
theorem c8_witness :
    clearFsCache (fun s => s) (some "/tmp/cache".data) =
      .ok "/tmp/cache".data ∧
    clearFsCache (fun s => s) none = .error "no cache to clear" ∧
    clearFsCache (fun s => s) (some "/".data) =
      .error "refusing to remove a root path" :=
  ⟨(c8_clear_fs_cache_safety (fun s => s) (some "/tmp/cache".data)).2.2.1
      "/tmp/cache".data rfl (by decide),
   (c8_clear_fs_cache_safety (fun s => s) none).1 rfl,
   (c8_clear_fs_cache_safety (fun s => s) (some "/".data)).2.1
      "/".data rfl (by decide)⟩

/-! ### C9: `get_client` and the `use_fs` override

`get_client` (lines 1178-1199) consults, in order: the process-wide
`_fs_client` override set by `use_fs`, the per-scheme `_instance_cache`,
then (after possibly importing an optional module that may register new
client types) the `_client_registry`; with no match it raises
`ValueError('There is no client registered to handle "<scheme>" paths')`.
We model clients as an inductive (the override is always a `BucketClientFS`
with a root), module import as an arbitrary registry transformer, and
client construction from a registered type name as an arbitrary function. -/

inductive ModelClient where
  | fs (root : Str)
  | other (tag : String)
deriving DecidableEq, Repr

structure ClientState where
  fsClient : Option Str
  instanceCache : List (String × ModelClient)
  registry : List (String × String)
  optionalMods : List (String × String)
deriving DecidableEq, Repr

def lookupStr (l : List (String × α)) (s : String) : Option α :=
  (l.find? (fun e => e.1 == s)).map (fun e => e.2)

def regAfterImport (imp : String → List (String × String) →
    List (String × String)) (g : ClientState) (scheme : String) :
    List (String × String) :=
  if (lookupStr g.registry scheme) = none ∧
      (lookupStr g.optionalMods scheme).isSome then
    imp scheme g.registry
  else g.registry

def getClient (imp : String → List (String × String) →
      List (String × String)) (mk : String → ModelClient)
    (g : ClientState) (scheme : String) :
    Except String (ModelClient × ClientState) :=
  match g.fsClient with
  | some root => .ok (.fs root, g)
  | none =>
    match lookupStr g.instanceCache scheme with
    | some cl => .ok (cl, g)
    | none =>
      match lookupStr (regAfterImport imp g scheme) scheme with
      | some tyName =>
          .ok (mk tyName,
            { g with
              registry := regAfterImport imp g scheme,
              instanceCache := (scheme, mk tyName) :: g.instanceCache })
      | none =>
          .error ("There is no client registered to handle \"" ++ scheme ++
            "\" paths")

/-- C9: when the `use_fs` override is active, `get_client` returns the
single local-filesystem client for every scheme, regardless of cached
instances or registered backends; when it is inactive and the scheme has no
cached instance, no registry entry, and no optional loader, `get_client`
fails with the no-client-registered error. -/
theorem c9_get_client_policy (imp : String → List (String × String) →
      List (String × String)) (mk : String → ModelClient)
    (g : ClientState) (scheme : String) :
    (∀ root, g.fsClient = some root →
      getClient imp mk g scheme = .ok (.fs root, g)) ∧
    (g.fsClient = none →
      lookupStr g.instanceCache scheme = none →
      lookupStr g.registry scheme = none →
      lookupStr g.optionalMods scheme = none →
      getClient imp mk g scheme =
        .error ("There is no client registered to handle \"" ++ scheme ++
          "\" paths")) := by
  constructor
  · intro root hroot
    rw [getClient, hroot]
  · intro hfs hcache hreg hopt
    have himp : regAfterImport imp g scheme = g.registry := by
      rw [regAfterImport, if_neg]
      simp [hopt]
    rw [getClient, hfs]
    dsimp only
    rw [hcache]
    dsimp only
    rw [himp, hreg]

/-- Witness for `c9_get_client_policy`: with the override rooted at
"/data", a "gs" lookup returns the FS client even though "gs" has a cached
remote instance, a registry entry, and an optional loader; with the
override off, an "s3" lookup on the default state fails with the
no-client-registered error. -/
theorem c9_witness :
    getClient (fun _ r => r) (fun t => .other t)
      ⟨some "/data".data,
       [("gs", .other "gcs-instance")],
       [("", "BucketClientFS"), ("file", "BucketClientFS"), ("gs", "gcs")],
       [("gs", "pathy.gcs")]⟩ "gs" =
      .ok (.fs "/data".data,
        ⟨some "/data".data,
         [("gs", .other "gcs-instance")],
         [("", "BucketClientFS"), ("file", "BucketClientFS"), ("gs", "gcs")],
         [("gs", "pathy.gcs")]⟩) ∧
    getClient (fun _ r => r) (fun t => .other t)
      ⟨none, [],
       [("", "BucketClientFS"), ("file", "BucketClientFS")],
       [("gs", "pathy.gcs")]⟩ "s3" =
      .error ("There is no client registered to handle \"s3\" paths") :=
  ⟨(c9_get_client_policy (fun _ r => r) (fun t => .other t)
      ⟨some "/data".data,
       [("gs", .other "gcs-instance")],
       [("", "BucketClientFS"), ("file", "BucketClientFS"), ("gs", "gcs")],
       [("gs", "pathy.gcs")]⟩ "gs").1 "/data".data rfl,
   by
    have h := (c9_get_client_policy (fun _ r => r) (fun t => .other t)
      ⟨none, [],
       [("", "BucketClientFS"), ("file", "BucketClientFS")],
       [("gs", "pathy.gcs")]⟩ "s3").2 rfl (by rfl) (by rfl) (by rfl)
    rw [h]
    rfl⟩
